import Mathlib

/-!
Shallow embedding of the program-repository IR hasher
(llvm/lib/Transforms/Utils/HashCalculator.cpp) and of the ticket-file /
common-symbol handling of the repository-to-object tool
(llvm/tools/repo2obj/repo2obj.cpp).

The digest sink (llvm::MD5 wrapped by the HashCalculator) is modelled as the
byte stream that is fed to it: `Hash.update(..)` is list append, and two
digests are equal exactly when their byte streams are equal (MD5 is treated
as an ideal, injective fingerprint, which is how the specification speaks
about digests).  Bytes are `Nat` values below 256.

The helper declarations of HashCalculator.h are not part of the source
tree; where the .cpp relies on them they are modelled from the spec:
`numberHash` writes the fixed-width little-endian widest native integer
(8 bytes), each `HashKind` tag is a single distinguished byte, and the
one-argument `Hash.update` overloads for bool/enum values write one byte.
-/

/-- 8-bit little-endian decomposition: `leBytes w n` is the `w`-byte
little-endian encoding of `n % 256^w`. -/
def leBytes : Nat → Nat → List Nat
  | 0, _ => []
  | w + 1, n => n % 256 :: leBytes w (n / 256)

/-- `numberHash`. Modelled from the spec: integer hashing is fixed-width
little-endian of the platform's widest native integer (64 bits); the
declaration lives in the missing HashCalculator.h. -/
def numberHash (n : Nat) : List Nat := leBytes 8 n

/-- Raw little-endian bytes of a 32-bit value (`sizeof(unsigned)`,
`sizeof(CallingConv::ID)`, `sizeof(Attribute::AttrKind)` are 4). -/
def le32 (n : Nat) : List Nat := leBytes 4 n

/-- Raw little-endian bytes of a 16-bit value (`sizeof(signed short)`). -/
def le16 (n : Nat) : List Nat := leBytes 2 n

/-- One byte for a C++ `bool` fed to the sink. -/
def bByte (b : Bool) : List Nat := [if b then 1 else 0]

/-- Bytes of a string literal (ASCII). -/
def strBytes (s : String) : List Nat := s.data.map Char.toNat

/-!  Domain-separation tags (`HashKind`).  The enumeration itself is declared
in the missing HashCalculator.h; the spec describes it as a closed set of
roughly forty distinct single-byte tags, so the tags are modelled as
distinct byte constants (only distinctness matters). -/

def TAG_StringRef : Nat := 1
def TAG_APInt : Nat := 2
def TAG_APFloat : Nat := 3
def TAG_AtomicOrdering : Nat := 4
def TAG_AttributeEnum : Nat := 5
def TAG_AttributeInt : Nat := 6
def TAG_AttributeString : Nat := 7
def TAG_AttributeList : Nat := 8
def TAG_InlineAsm : Nat := 9
def TAG_InlineAsm_SideEffects : Nat := 10
def TAG_InlineAsm_AlignStack : Nat := 11
def TAG_InlineAsm_Dialect : Nat := 12
def TAG_RangeMetadata : Nat := 13
def TAG_Type : Nat := 14
def TAG_Constant : Nat := 15
def TAG_Value : Nat := 16
def TAG_Instruction : Nat := 17
def TAG_GetElementPtrInst : Nat := 18
def TAG_AllocaInst : Nat := 19
def TAG_LoadInst : Nat := 20
def TAG_StoreInst : Nat := 21
def TAG_CmpInst : Nat := 22
def TAG_CallInst : Nat := 23
def TAG_InvokeInst : Nat := 24
def TAG_InsertValueInst : Nat := 25
def TAG_ExtractValueInst : Nat := 26
def TAG_FenceInst : Nat := 27
def TAG_AtomicCmpXchgInst : Nat := 28
def TAG_AtomicRMWInst : Nat := 29
def TAG_PHINode : Nat := 30
def TAG_BasicBlock : Nat := 31
def TAG_Signature : Nat := 32
def TAG_Signature_GC : Nat := 33
def TAG_Signature_Sec : Nat := 34
def TAG_Signature_VarArg : Nat := 35
def TAG_Signature_CC : Nat := 36
def TAG_Signature_Arg : Nat := 37
def TAG_OperandBundles : Nat := 38
def TAG_Datalayout : Nat := 39
def TAG_Triple : Nat := 40
def TAG_GlobalFunction : Nat := 41
def TAG_GlobalVarible : Nat := 42
def TAG_GlobalAlias : Nat := 43
def TAG_GVComdat : Nat := 44
def TAG_GVConstant : Nat := 45
def TAG_GVThreadLocalMode : Nat := 46
def TAG_GVAlignment : Nat := 47
def TAG_GVUnnamedAddr : Nat := 48
def TAG_GVInitValue : Nat := 49

/-- `HashCalculator::memHash(StringRef)`: tag, length (via `numberHash`),
then the raw bytes. -/
def memHash (v : List Nat) : List Nat :=
  TAG_StringRef :: numberHash v.length ++ v

/-!  ## IR types

`Type::TypeID` values of the LLVM version this tree is based on.  The ids
are hashed as the single byte `Hash.update(Ty->getTypeID())`. -/

inductive Ty where
  | void
  | float
  | double
  | x86fp80
  | fp128
  | ppcfp128
  | label
  | metadata
  | token
  | int (width : Nat)
  | func (params : List Ty) (varArg : Bool) (ret : Ty)
  | pointer (addrSpace : Nat)
  | strukt (elems : List Ty) (packed : Bool)
  | array (n : Nat) (elem : Ty)
  | vector (n : Nat) (elem : Ty)

/-- `Type::getTypeID()`. -/
def Ty.tid : Ty → Nat
  | .void => 0
  | .float => 2
  | .double => 3
  | .x86fp80 => 4
  | .fp128 => 5
  | .ppcfp128 => 6
  | .label => 7
  | .metadata => 8
  | .token => 10
  | .int _ => 11
  | .func _ _ _ => 12
  | .strukt _ _ => 13
  | .array _ _ => 14
  | .pointer _ => 15
  | .vector _ _ => 16

mutual
/-- `HashCalculator::typeHash`: tag, type id byte, then kind-specific data.
Primitive types add nothing; integers add the bit width; function types
recurse over the parameters, then the vararg flag, then the return type;
pointers add only the address space; structs recurse over the elements and
add the packed flag only when it is set; arrays and vectors add the element
count then the element type. -/
def typeHash : Ty → List Nat
  | .int w => TAG_Type :: Ty.tid (.int w) :: numberHash w
  | .func ps va r =>
      TAG_Type :: Ty.tid (.func ps va r) ::
        (typeListHash ps ++ bByte va ++ typeHash r)
  | .pointer as => TAG_Type :: Ty.tid (.pointer as) :: numberHash as
  | .strukt es p =>
      TAG_Type :: Ty.tid (.strukt es p) ::
        (typeListHash es ++ if p then bByte p else [])
  | .array n e => TAG_Type :: Ty.tid (.array n e) :: (numberHash n ++ typeHash e)
  | .vector n e => TAG_Type :: Ty.tid (.vector n e) :: (numberHash n ++ typeHash e)
  | t => [TAG_Type, Ty.tid t]

/-- The `for (Type *ParamTy : ...) typeHash(ParamTy)` loops. -/
def typeListHash : List Ty → List Nat
  | [] => []
  | t :: ts => typeHash t ++ typeListHash ts
end

/-!  ## Arbitrary-precision integers and floats -/

/-- An `APInt` as seen by the hasher: its raw 64-bit words
(`getRawData()` / `getNumWords()`), in order.  Every word is below 2^64. -/
structure APIntV where
  words : List Nat

/-- `HashCalculator::APIntHash`: the tag, then `numberHash` of each raw
64-bit word in order (written as the source's loop). -/
def APIntHash (v : APIntV) : List Nat :=
  TAG_APInt :: v.words.foldl (fun acc w => acc ++ numberHash w) []

/-- The serialization format that the specification describes for
variable-size integers: tag, then a length, then the raw limb sequence.
This definition follows the spec's words, for comparison with `APIntHash`
which follows the source. -/
def APIntHashSpec (v : APIntV) : List Nat :=
  TAG_APInt :: (numberHash v.words.length ++ (v.words.map numberHash).flatten)

/-- `fltSemantics` of an `APFloat` as consumed by `APFloatHash`:
precision, max exponent, min exponent, size in bits. -/
structure FltSem where
  prec : Nat
  maxExp : Int
  minExp : Int
  sizeInBits : Nat

/-- Two raw little-endian bytes of a `signed short` exponent. -/
def shortBytes (i : Int) : List Nat := le16 (i % 65536).toNat

/-- `HashCalculator::APFloatHash`: tag, semantics tuple
(precision via `numberHash`, max/min exponent as raw `signed short` bytes,
size in bits via `numberHash`), then the bit pattern as an `APInt`. -/
def APFloatHash (s : FltSem) (bits : APIntV) : List Nat :=
  TAG_APFloat :: (numberHash s.prec ++ shortBytes s.maxExp ++ shortBytes s.minExp
    ++ numberHash s.sizeInBits ++ APIntHash bits)

/-- `HashCalculator::orderingHash`: tag then the ordering as one byte. -/
def orderingHash (v : Nat) : List Nat := [TAG_AtomicOrdering, v]

/-!  ## repo2obj: ticket files (repo2obj.cpp, getTicketFileUuid)

The function is modelled on the contents of the ticket file (a byte list);
the I/O wrappers around it (open/stat/mmap failures return an error code
to the caller instead) are outside the model.  `error(...)` prints the
diagnostic and exits with failure status; it is modelled as `Except.error`
carrying the diagnostic bytes.  The first argument is the ticket path that
was read (used by the source only to open the file); the second is the
value of the `-o` option (`OutputFilename`, default `./a.out`), which is
what the source interpolates into the diagnostic. -/

def repoUuidSig : List Nat := strBytes "RepoUuid"

/-- The diagnostic built at repo2obj.cpp:79 and :97. -/
def ticketFileMsg (outputFilename : List Nat) : List Nat :=
  strBytes "File \"" ++ outputFilename ++ strBytes "\" was not a Repo ticket file"

/-- `getTicketFileUuid`: the file must be exactly
`sizeof(uint64_t) + 16 = 24` bytes; bytes 0-7 must be the signature
`"RepoUuid"`; the result is the 16 UUID bytes 8-23. -/
def getTicketFileUuid (ticketPath outputFilename contents : List Nat) :
    Except (List Nat) (List Nat) :=
  if contents.length ≠ 24 then .error (ticketFileMsg outputFilename)
  else if contents.take 8 ≠ repoUuidSig then .error (ticketFileMsg outputFilename)
  else .ok ((contents.drop 8).take 16)

/-!  ## repo2obj: common-linkage ticket members (repo2obj.cpp main, 406-419) -/

/-- `pstore::repo::section_type`: the closed 18-kind enumeration
(LLVM_REPO_SECTION_TYPES). -/
inductive SectionType where
  | bss
  | common
  | data
  | relro
  | text
  | mergeable1ByteCString
  | mergeable2ByteCString
  | mergeable4ByteCString
  | mergeableConst4
  | mergeableConst8
  | mergeableConst16
  | mergeableConst32
  | mergeableConst
  | readonly
  | threadbss
  | threaddata
  | threadlocal
  | metadata
deriving DecidableEq

/-- A fragment section: payload bytes and alignment (the fix-up lists are
not consulted by the code under consideration). -/
structure RSection where
  data : List Nat
  align : Nat

/-- A fragment: sparse mapping from section kind to section; each kind
appears at most once. -/
structure Fragment where
  sections : List (SectionType × RSection)

def Fragment.numSections (f : Fragment) : Nat := f.sections.length

def Fragment.hasSection (f : Fragment) (t : SectionType) : Bool :=
  f.sections.any (fun p => p.1 = t)

def Fragment.getSection (f : Fragment) (t : SectionType) : RSection :=
  match f.sections.find? (fun p => p.1 = t) with
  | some p => p.2
  | none => ⟨[], 0⟩

/-- `pstore::repo::linkage_type` values used by the tool. -/
inductive Linkage where
  | external
  | internal
  | linkonce
  | common
  | append
deriving DecidableEq

/-- A symbol-table entry as produced by `SymbolTable::insertSymbol`:
name, optional output section, offset, size, linkage. -/
structure SymbolEntry where
  name : List Nat
  outputSection : Option Nat
  offset : Nat
  size : Nat
  linkage : Linkage
deriving DecidableEq

/-- The diagnostic built at repo2obj.cpp:411. -/
def commonErrMsg (name : List Nat) : List Nat :=
  strBytes "Fragment for common symbol \"" ++ name
    ++ strBytes "\" did not contain a sole BSS section"

/-- The common-linkage branch of repo2obj's main loop: unless the member's
fragment has exactly one section and that section is BSS, the tool fails
fatally; otherwise it inserts a symbol with no output section, offset 0 and
the BSS data size, and `continue`s, appending no section data (the returned
list of section contributions is empty). -/
def processCommonMember (name : List Nat) (frag : Fragment) :
    Except (List Nat) (SymbolEntry × List (SectionType × List Nat)) :=
  if frag.numSections ≠ 1 ∨ ¬ frag.hasSection .bss then
    .error (commonErrMsg name)
  else
    .ok (⟨name, none, 0, (frag.getSection .bss).data.length, .common⟩, [])

/-!  ## Constants and the global-numbering map (HashCalculator.cpp 189-325)

`Value::ValueID` constants for the constant kinds the hasher dispatches on.
Only their distinctness matters; a `ConstantExpr` reports the single id
`vidConstantExpr` whatever its opcode. -/

def vidBlockAddress : Nat := 7
def vidConstantExpr : Nat := 8
def vidConstantArray : Nat := 9
def vidConstantStruct : Nat := 10
def vidConstantVector : Nat := 11
def vidUndefValue : Nat := 12
def vidConstantAggregateZero : Nat := 13
def vidConstantDataArray : Nat := 14
def vidConstantDataVector : Nat := 15
def vidConstantInt : Nat := 16
def vidConstantFP : Nat := 17
def vidConstantPointerNull : Nat := 18
def vidConstantTokenNone : Nat := 19

/-- The constant graph seen by `HashCalculator::constantHash`.

* `globalVarC g ty` is a reference to the global variable numbered `g`
  (its type, like every LLVM global, is a pointer type);
* `otherGVC` is any other `GlobalValue` use (a function, an alias, or a
  global variable without a definitive initializer): `constantHash`
  returns for these right after the type hash;
* `leafC` covers `UndefValue`, `ConstantTokenNone`,
  `ConstantAggregateZero` and `ConstantPointerNull`, which add only their
  value id;
* `dataC` covers `ConstantDataArray`/`ConstantDataVector`, hashed as
  their raw data bytes via `memHash`;
* `arrayC`/`structC`/`vectorC`/`exprC` recurse over their operands (the
  source loops run over the type's element count, which in well-formed IR
  equals the operand count; `exprC` carries its opcode, which the source
  never feeds to the sink);
* `blockAddrC ty fnTy bb` is a `BlockAddress`; the source calls
  `valueHash` on the parent function (type `fnTy`) and on the basic block
  (sequence-numbered value `bb`). -/
inductive Const where
  | intC (ty : Ty) (v : APIntV)
  | fpC (ty : Ty) (sem : FltSem) (bits : APIntV)
  | leafC (ty : Ty) (vid : Nat)
  | dataC (ty : Ty) (vid : Nat) (bytes : List Nat)
  | arrayC (ty : Ty) (elems : List Const)
  | structC (ty : Ty) (elems : List Const)
  | vectorC (ty : Ty) (elems : List Const)
  | exprC (ty : Ty) (opcode : Nat) (ops : List Const)
  | blockAddrC (ty : Ty) (fnTy : Ty) (bb : Nat)
  | globalVarC (ty : Ty) (g : Nat)
  | otherGVC (ty : Ty)

/-- `Value::getType()` for a constant. -/
def Const.ty : Const → Ty
  | .intC t _ => t
  | .fpC t _ _ => t
  | .leafC t _ => t
  | .dataC t _ _ => t
  | .arrayC t _ => t
  | .structC t _ => t
  | .vectorC t _ => t
  | .exprC t _ _ => t
  | .blockAddrC t _ _ => t
  | .globalVarC t _ => t
  | .otherGVC t => t

/-- The module environment a constant-hash computation runs in: the global
variables with definitive initializers (`GlobalVariable` id to
initializer) and `GlobalValue::getGUID`. -/
structure GEnv where
  inits : List (Nat × Const)
  guid : Nat → Nat

/-- The mutable state of one `HashCalculator` computation: the
global-numbering map (`global_numbers`) and the anonymous-value
sequence-number map (`sn_map`), both keyed by value identity and recording
the insertion order, so that the number of an entry is its index. -/
structure HCState where
  globalNumbers : List Nat
  snMap : List Nat
deriving DecidableEq

/-- `sn_map.insert({V, sn_map.size()})` followed by
`numberHash(SN.first->second)`: the first occurrence of a value fixes its
number as the map size at insertion; later occurrences re-emit it. -/
def snEmit (st : HCState) (id : Nat) : HCState × List Nat :=
  if st.snMap.contains id then
    (st, numberHash (st.snMap.findIdx (fun x => x = id)))
  else
    (⟨st.globalNumbers, st.snMap ++ [id]⟩, numberHash st.snMap.length)

mutual
/-- `HashCalculator::constantHash`, with an explicit recursion-depth
budget (`none` means the budget ran out; the source recursion carries no
budget, and the termination theorem shows a finite budget always
suffices).  Emission order follows the source: `TAG_Constant`, the type
hash, then for `GlobalValue`s the cycle-breaking global-numbering logic
and for all other constants the value id and kind-specific data. -/
def constantHashF (env : GEnv) : Nat → HCState → Const → Option (HCState × List Nat)
  | 0, _, _ => none
  | f + 1, st, c =>
    match c with
    | .globalVarC ty g =>
      match env.inits.lookup g with
      | some init =>
        if st.globalNumbers.contains g then
          (globalValueHashF env f st g).map
            (fun p => (p.1, TAG_Constant :: typeHash ty ++ p.2))
        else
          (constantHashF env f ⟨st.globalNumbers ++ [g], st.snMap⟩ init).map
            (fun p => (p.1, TAG_Constant :: typeHash ty ++ p.2))
      | none => some (st, TAG_Constant :: typeHash ty)
    | .otherGVC ty => some (st, TAG_Constant :: typeHash ty)
    | .intC ty v =>
      some (st, TAG_Constant :: typeHash ty ++ numberHash vidConstantInt
        ++ APIntHash v)
    | .fpC ty sem bits =>
      some (st, TAG_Constant :: typeHash ty ++ numberHash vidConstantFP
        ++ APFloatHash sem bits)
    | .leafC ty vid =>
      some (st, TAG_Constant :: typeHash ty ++ numberHash vid)
    | .dataC ty vid bytes =>
      some (st, TAG_Constant :: typeHash ty ++ numberHash vid
        ++ memHash bytes)
    | .arrayC ty es =>
      (constListHashF env f st es).map
        (fun p => (p.1, TAG_Constant :: typeHash ty
          ++ numberHash vidConstantArray ++ p.2))
    | .structC ty es =>
      (constListHashF env f st es).map
        (fun p => (p.1, TAG_Constant :: typeHash ty
          ++ numberHash vidConstantStruct ++ p.2))
    | .vectorC ty es =>
      (constListHashF env f st es).map
        (fun p => (p.1, TAG_Constant :: typeHash ty
          ++ numberHash vidConstantVector ++ p.2))
    | .exprC ty _opcode ops =>
      (constListHashF env f st ops).map
        (fun p => (p.1, TAG_Constant :: typeHash ty
          ++ numberHash vidConstantExpr ++ p.2))
    | .blockAddrC ty fnTy bb =>
      -- valueHash(BA->getFunction()): the function is a constant
      -- `GlobalValue` that is not a `GlobalVariable`, so its hash is
      -- TAG_Value, TAG_Constant, its type; valueHash(BA->getBasicBlock()):
      -- a block is a non-constant value, numbered through sn_map.  Both
      -- calls are inlined here so that `Const` stays first-order.
      let p := snEmit st bb
      some (p.1, TAG_Constant :: typeHash ty ++ numberHash vidBlockAddress
        ++ (TAG_Value :: TAG_Constant :: typeHash fnTy)
        ++ (TAG_Value :: p.2))

/-- The `constantHash` loops over aggregate/expression operands, threading
the hasher state left to right. -/
def constListHashF (env : GEnv) : Nat → HCState → List Const → Option (HCState × List Nat)
  | 0, _, _ => none
  | _ + 1, st, [] => some (st, [])
  | f + 1, st, c :: cs => do
    let p ← constantHashF env f st c
    let q ← constListHashF env f p.1 cs
    some (q.1, p.2 ++ q.2)

/-- `HashCalculator::globalValueHash`: the GUID, then for a global
variable with a definitive initializer either the recorded number
(cycle-breaking) or, on first visit, the numbering insertion followed by
the recursive initializer hash. -/
def globalValueHashF (env : GEnv) : Nat → HCState → Nat → Option (HCState × List Nat)
  | 0, _, _ => none
  | f + 1, st, g =>
    match env.inits.lookup g with
    | some init =>
      if st.globalNumbers.contains g then
        some (st, numberHash (env.guid g)
          ++ numberHash (st.globalNumbers.findIdx (fun x => x = g)))
      else
        (constantHashF env f ⟨st.globalNumbers ++ [g], st.snMap⟩ init).map
          (fun p => (p.1, numberHash (env.guid g) ++ p.2))
    | none => some (st, numberHash (env.guid g))
end

/-- The global-variable ids of the environment, each once. -/
def envIds (env : GEnv) : List Nat := (env.inits.map Prod.fst).dedup

/-- How many globals of the environment are not yet recorded in the
global-numbering map: the quantity the cycle-breaking argument descends
on. -/
def unvisG (env : GEnv) (gn : List Nat) : Nat :=
  (envIds env).countP (fun g => !(gn.contains g))

/-!  ## Values, attributes, instructions (HashCalculator.cpp 283-534) -/

/-- An `InlineAsm` value as consumed by `inlineAsmHash`. -/
structure InlineAsmV where
  fnTy : Ty
  asmString : List Nat
  constraintString : List Nat
  sideEffects : Bool
  alignStack : Bool
  dialect : Nat

/-- `HashCalculator::inlineAsmHash`: tag, function type, asm string,
constraint string, then the three tagged flag bytes. -/
def inlineAsmHash (a : InlineAsmV) : List Nat :=
  TAG_InlineAsm :: (typeHash a.fnTy ++ memHash a.asmString
    ++ memHash a.constraintString
    ++ TAG_InlineAsm_SideEffects :: bByte a.sideEffects
    ++ TAG_InlineAsm_AlignStack :: bByte a.alignStack
    ++ [TAG_InlineAsm_Dialect, a.dialect])

/-- A value as dispatched on by `HashCalculator::valueHash`:
a `Constant` (this includes every `GlobalValue`), an `InlineAsm`, or any
other value — an argument, an instruction result or a basic block —
identified by `id`, carrying its type and its (possibly empty) name.
Because globals are constants, the source's trailing
`GlobalVariable`/`GlobalAlias` name test is unreachable for non-constant
values: they are always numbered through `sn_map` and their name is never
read. -/
inductive Val where
  | cst (c : Const)
  | asm (a : InlineAsmV)
  | loc (id : Nat) (ty : Ty) (name : List Nat)

/-- `Value::getType()`; an `InlineAsm` value's type is a pointer (address
space 0) to its function type, and only the address space is hashed. -/
def Val.tyOf : Val → Ty
  | .cst c => c.ty
  | .asm _ => .pointer 0
  | .loc _ ty _ => ty

/-- `HashCalculator::valueHash`: the tag, then constants via
`constantHash`, inline asm via `inlineAsmHash`, and every other value via
its `sn_map` sequence number (first occurrence assigns the next number). -/
def valueHashF (env : GEnv) (f : Nat) (st : HCState) : Val → Option (HCState × List Nat)
  | .cst c => (constantHashF env f st c).map (fun p => (p.1, TAG_Value :: p.2))
  | .asm a => some (st, TAG_Value :: inlineAsmHash a)
  | .loc id _ _ =>
    let p := snEmit st id
    some (p.1, TAG_Value :: p.2)

/-- An attribute (`llvm::Attribute`): enum, int or string kind. -/
inductive Attr where
  | enum (kind : Nat)
  | intAttr (kind : Nat) (v : Nat)
  | strAttr (kind : List Nat) (v : List Nat)

/-- `HashCalculator::attributeHash`: per-kind tag, then the
`Attribute::AttrKind` as its 4 raw bytes (plus value for int attributes),
or the kind and value strings for string attributes. -/
def attributeHash : Attr → List Nat
  | .enum k => TAG_AttributeEnum :: le32 k
  | .intAttr k v => TAG_AttributeInt :: (le32 k ++ numberHash v)
  | .strAttr k v => TAG_AttributeString :: (memHash k ++ memHash v)

/-- One pass over every attribute of every attribute set, in order. -/
def attrSetsHashOnce (sets : List (List Attr)) : List Nat :=
  (sets.map (fun s => (s.map attributeHash).flatten)).flatten

/-- `HashCalculator::attributeListHash`: the tag, then — because the inner
loop of the source shadows the outer loop variable and re-iterates every
attribute index — the full attribute-set pass repeated once per attribute
set (`getNumAttrSets` times). -/
def attributeListHash (sets : List (List Attr)) : List Nat :=
  TAG_AttributeList ::
    ((List.range sets.length).map (fun _ => attrSetsHashOnce sets)).flatten

/-- `HashCalculator::rangeMetadataHash`: nothing when there is no range
metadata; otherwise the tag and the `APInt` of each operand. -/
def rangeMetadataHash : Option (List APIntV) → List Nat
  | none => []
  | some ops => TAG_RangeMetadata :: (ops.map APIntHash).flatten

/-- `FunctionHashCalculator::operandBundlesHash`: the tag, then per bundle
its tag name and the number of inputs. -/
def operandBundlesHash (bs : List (List Nat × Nat)) : List Nat :=
  TAG_OperandBundles :: (bs.map (fun b => memHash b.1 ++ numberHash b.2)).flatten

/-- What the source feeds to the sink for InsertValue/ExtractValue
indices: `ArrayRef<uint8_t>((uint8_t *)&Indices, sizeof(unsigned) *
Indices.size())` reads `4 * n` bytes starting at the address of the local
`ArrayRef<unsigned>` object itself — on x86-64 the 8-byte data pointer
followed by the 8-byte length — not the index values it points to. -/
def indicesObjectBytes (indicesAddr : Nat) (indices : List Nat) : List Nat :=
  (numberHash indicesAddr ++ numberHash indices.length).take (4 * indices.length)

/-- The kind-specific tail of `instructionHash`: the source's chain of
`dyn_cast` tests, one case per special instruction class; `plain` for
every other opcode.  `insertValue`/`extractValue` carry the runtime
address of their index array (`indicesAddr`) because the source hashes
the `ArrayRef` object's own bytes. -/
inductive InstExtra where
  | plain
  | gep (srcElemTy : Ty)
  | alloca (allocatedTy : Ty) (align : Nat)
  | load (vol : Bool) (align : Nat) (ord : Nat) (scope : Nat)
      (range : Option (List APIntV))
  | store (vol : Bool) (align : Nat) (ord : Nat) (scope : Nat)
  | cmp (pred : Nat)
  | call (tailCall : Bool) (attrs : List (List Attr))
      (bundles : List (List Nat × Nat)) (range : Option (List APIntV))
      (callee : Option (List Nat))
  | invoke (cc : Nat) (attrs : List (List Attr))
      (bundles : List (List Nat × Nat)) (range : Option (List APIntV))
      (callee : Option (List Nat))
  | insertValue (indicesAddr : Nat) (indices : List Nat)
  | extractValue (indicesAddr : Nat) (indices : List Nat)
  | fence (ord : Nat) (scope : Nat)
  | cmpxchg (vol : Bool) (weak : Bool) (succOrd : Nat) (failOrd : Nat)
      (scope : Nat)
  | atomicrmw (op : Nat) (vol : Bool) (ord : Nat) (scope : Nat)
  | phi (incoming : List Val)

/-- The `valueHash` loop over a list of values (PHI incoming blocks,
signature arguments), threading the hasher state. -/
def valueListHashF (env : GEnv) (f : Nat) : HCState → List Val → Option (HCState × List Nat)
  | st, [] => some (st, [])
  | st, v :: vs => do
    let p ← valueHashF env f st v
    let q ← valueListHashF env f p.1 vs
    some (q.1, p.2 ++ q.2)

/-- The kind-specific instruction tails of `instructionHash`
(HashCalculator.cpp 414-524), each prefixed by its own tag. -/
def instExtraHashF (env : GEnv) (f : Nat) (st : HCState) : InstExtra → Option (HCState × List Nat)
  | .plain => some (st, [])
  | .gep t => some (st, TAG_GetElementPtrInst :: typeHash t)
  | .alloca t a => some (st, TAG_AllocaInst :: (typeHash t ++ numberHash a))
  | .load v a o sc r =>
    some (st, TAG_LoadInst :: (bByte v ++ numberHash a ++ orderingHash o
      ++ [sc] ++ rangeMetadataHash r))
  | .store v a o sc =>
    some (st, TAG_StoreInst :: (bByte v ++ numberHash a ++ orderingHash o
      ++ [sc]))
  | .cmp p => some (st, [TAG_CmpInst, p])
  | .call tc attrs bs r callee =>
    some (st, TAG_CallInst :: (bByte tc ++ attributeListHash attrs
      ++ operandBundlesHash bs ++ rangeMetadataHash r
      ++ (match callee with | some n => memHash n | none => [])))
  | .invoke cc attrs bs r callee =>
    some (st, TAG_InvokeInst :: (numberHash cc ++ attributeListHash attrs
      ++ operandBundlesHash bs ++ rangeMetadataHash r
      ++ (match callee with | some n => memHash n | none => [])))
  | .insertValue addr idxs =>
    some (st, TAG_InsertValueInst :: indicesObjectBytes addr idxs)
  | .extractValue addr idxs =>
    some (st, TAG_ExtractValueInst :: indicesObjectBytes addr idxs)
  | .fence o sc => some (st, TAG_FenceInst :: (orderingHash o ++ [sc]))
  | .cmpxchg v w so fo sc =>
    some (st, TAG_AtomicCmpXchgInst :: (bByte v ++ bByte w
      ++ orderingHash so ++ orderingHash fo ++ [sc]))
  | .atomicrmw op v o sc =>
    some (st, TAG_AtomicRMWInst :: ([op] ++ bByte v ++ orderingHash o
      ++ [sc]))
  | .phi incoming =>
    (valueListHashF env f st incoming).map
      (fun p => (p.1, TAG_PHINode :: p.2))

/-- An instruction: the opcode, result type, raw subclass-optional-data,
operand values and the kind-specific tail. -/
structure Inst where
  opcode : Nat
  ty : Ty
  subclassOptData : Nat
  operands : List Val
  extra : InstExtra

/-- The operand loop of `instructionHash`: for each operand its type, then
its value. -/
def operandsHashF (env : GEnv) (f : Nat) : HCState → List Val → Option (HCState × List Nat)
  | st, [] => some (st, [])
  | st, v :: vs => do
    let p ← valueHashF env f st v
    let q ← operandsHashF env f p.1 vs
    some (q.1, typeHash v.tyOf ++ p.2 ++ q.2)

/-- `FunctionHashCalculator::instructionHash`: tag, opcode, result type,
raw subclass optional data, each operand's type and value, then the
kind-specific tail. -/
def instructionHashF (env : GEnv) (f : Nat) (st : HCState) (i : Inst) :
    Option (HCState × List Nat) := do
  let p ← operandsHashF env f st i.operands
  let q ← instExtraHashF env f p.1 i.extra
  some (q.1, TAG_Instruction :: (numberHash i.opcode ++ typeHash i.ty
    ++ numberHash i.subclassOptData ++ p.2 ++ q.2))

/-!  ## Basic blocks, functions, the CFG walk (HashCalculator.cpp 334-564) -/

/-- A basic block: its value identity (`bid`), name (never hashed),
instruction list (nonempty in valid IR — the source's do-while loop
requires a terminator) and the successor list of its terminator. -/
structure Block where
  bid : Nat
  name : List Nat
  insts : List Inst
  succs : List Nat

/-- The instruction loop of `basicBlockHash`. -/
def instListHashF (env : GEnv) (f : Nat) : HCState → List Inst → Option (HCState × List Nat)
  | st, [] => some (st, [])
  | st, i :: is2 => do
    let p ← instructionHashF env f st i
    let q ← instListHashF env f p.1 is2
    some (q.1, p.2 ++ q.2)

/-- `FunctionHashCalculator::basicBlockHash`: the tag, then each
instruction in order. -/
def basicBlockHashF (env : GEnv) (f : Nat) (st : HCState) (insts : List Inst) :
    Option (HCState × List Nat) :=
  (instListHashF env f st insts).map (fun p => (p.1, TAG_BasicBlock :: p.2))

/-- A function as consumed by `FunctionHashCalculator`: attributes, the
optional GC and section names, the calling convention, the function type,
the argument values in declaration order, the entry block id and the
blocks. -/
structure Func where
  attrs : List (List Attr)
  gc : Option (List Nat)
  sect : Option (List Nat)
  cc : Nat
  fnTy : Ty
  args : List Val
  entry : Nat
  blocks : List Block

/-- `FunctionType::getNumParams()`. -/
def Ty.numParams : Ty → Nat
  | .func ps _ _ => ps.length
  | _ => 0

/-- `Function::getReturnType()`. -/
def Ty.retTy : Ty → Ty
  | .func _ _ r => r
  | t => t

/-- `Function::isVarArg()`. -/
def Ty.isVarArgTy : Ty → Bool
  | .func _ va _ => va
  | _ => false

/-- `ModuleM`: the module state read by the hashers. -/
structure ModuleM where
  dataLayout : List Nat
  triple : List Nat
  sourceFileName : List Nat

/-- `moduleHash`: data-layout string then target triple, each tagged. -/
def moduleHashStream (M : ModuleM) : List Nat :=
  TAG_Datalayout :: memHash M.dataLayout ++ TAG_Triple :: memHash M.triple

/-- `FunctionHashCalculator::signatureHash`: tag, attribute list, optional
GC name, optional section name, the vararg flag, the calling convention —
emitted only when the function has parameters or returns void — the
function type, then each argument (tagged once) in declaration order. -/
def signatureHashF (env : GEnv) (f : Nat) (st : HCState) (F : Func) :
    Option (HCState × List Nat) := do
  let p ← valueListHashF env f st F.args
  some (p.1, TAG_Signature :: (attributeListHash F.attrs
    ++ (match F.gc with | some g => TAG_Signature_GC :: memHash g | none => [])
    ++ (match F.sect with | some s => TAG_Signature_Sec :: memHash s | none => [])
    ++ TAG_Signature_VarArg :: bByte F.fnTy.isVarArgTy
    ++ (if F.fnTy.numParams ≠ 0 ∨ (Ty.retTy F.fnTy).tid = 0 then
          TAG_Signature_CC :: le32 F.cc
        else [])
    ++ typeHash F.fnTy
    ++ [TAG_Signature_Arg]) ++ p.2)

/-- Finding the block for a block id. -/
def blockLookup (F : Func) (id : Nat) : Option Block :=
  F.blocks.find? (fun b => b.bid = id)

/-- The successor loop of the CFG walk: each successor in order is looked
up in the visited set; a new one is inserted and collected for pushing. -/
def pushSuccs (vis : List Nat) : List Nat → List Nat × List Nat
  | [] => (vis, [])
  | s :: ss =>
    if vis.contains s then pushSuccs vis ss
    else
      let r := pushSuccs (vis ++ [s]) ss
      (r.1, s :: r.2)

/-- The CFG-ordered walk of `calculateFunctionHash` (lines 546-563): a
stack of block ids (head = the vector's back, as popped by
`pop_back_val`) and a visited set.  Each popped block is value-hashed
(blocks are `sn_map`-numbered values) and block-hashed, then its
unvisited successors are marked and pushed in order.  The first fuel is
the hashing recursion budget, the second bounds the loop (the source loop
needs no bound; every theorem below holds for every budget). -/
def walkF (env : GEnv) (F : Func) (f : Nat) : Nat → HCState → List Nat → List Nat → Option (HCState × List Nat)
  | 0, _, _, _ => none
  | _ + 1, st, _, [] => some (st, [])
  | wf + 1, st, vis, id :: rest =>
    let pv := snEmit st id
    match blockLookup F id with
    | none =>
      (walkF env F f wf pv.1 vis rest).map
        (fun p => (p.1, (TAG_Value :: pv.2) ++ p.2))
    | some bb =>
      match basicBlockHashF env f pv.1 bb.insts with
      | none => none
      | some (st2, sBB) =>
        let pr := pushSuccs vis bb.succs
        (walkF env F f wf st2 pr.1 (pr.2.reverse ++ rest)).map
          (fun p => (p.1, (TAG_Value :: pv.2) ++ sBB ++ p.2))

/-- `FunctionHashCalculator::calculateFunctionHash`: reset the numbering
maps, then `TAG_GlobalFunction`, the module hash, the signature hash, and
the CFG walk started (stack and visited set) at the entry block.  The
digest is the final byte stream. -/
def calculateFunctionHashF (env : GEnv) (f : Nat) (M : ModuleM) (F : Func) :
    Option (List Nat) := do
  let p ← signatureHashF env f (⟨[], []⟩ : HCState) F
  let q ← walkF env F f f p.1 [F.entry] [F.entry]
  some (TAG_GlobalFunction :: moduleHashStream M ++ p.2 ++ q.2)

/-- Reachability along terminator successors from the entry block. -/
inductive Reaches (F : Func) : Nat → Prop where
  | entry : Reaches F F.entry
  | step {id : Nat} {bb : Block} {s : Nat} : Reaches F id →
      blockLookup F id = some bb → s ∈ bb.succs → Reaches F s

/-- Appending a basic block to a function (the block list order is
immaterial to the walk). -/
def addBlock (F : Func) (B : Block) : Func :=
  ⟨F.attrs, F.gc, F.sect, F.cc, F.fnTy, F.args, F.entry, F.blocks ++ [B]⟩

/-!  ## Global-variable hashing (HashCalculator.cpp 571-633) -/

/-- A global variable as consumed by `VaribleHashCalculator`: the fields
the source reads, hashed or not.  `initv` is the definitive initializer
when there is one.  `linkage`, `visibility` and `dllStorage` are carried
(the source object has them) but the hash never reads them. -/
structure GlobalVar where
  name : List Nat
  valueType : Ty
  isConst : Bool
  threadLocalMode : Nat
  align : Nat
  unnamedAddr : Nat
  comdat : Option (List Nat × Nat)
  initv : Option Const
  linkage : Nat
  visibility : Nat
  dllStorage : Nat

/-- `VaribleHashCalculator::comdatHash`: the tag, the comdat name fed as a
raw `StringRef` (`Hash.update(GvC->getName())` — no length prefix, unlike
`memHash`), then the selection kind byte. -/
def comdatHash (c : List Nat × Nat) : List Nat :=
  TAG_GVComdat :: (c.1 ++ [c.2])

/-- `VaribleHashCalculator::calculateVaribleHash`: tag, module hash, value
type, constant flag, thread-local mode, alignment, unnamed-addr byte,
optional comdat, and — only when the variable has both a name and a
definitive initializer — the tagged initializer constant (hashed from the
freshly reset numbering state).  Linkage, visibility, DLL storage class
and the module's source filename are not hashed (they appear only in
commented-out code). -/
def calculateVaribleHashF (env : GEnv) (f : Nat) (M : ModuleM)
    (gv : GlobalVar) : Option (List Nat) :=
  let pre : List Nat :=
    TAG_GlobalVarible :: moduleHashStream M
      ++ typeHash gv.valueType
      ++ TAG_GVConstant :: bByte gv.isConst
      ++ [TAG_GVThreadLocalMode, gv.threadLocalMode]
      ++ TAG_GVAlignment :: numberHash gv.align
      ++ [TAG_GVUnnamedAddr, gv.unnamedAddr]
      ++ (match gv.comdat with | some c => comdatHash c | none => [])
  match gv.initv with
  | some c =>
    if gv.name ≠ [] then
      (constantHashF env f (⟨[], []⟩ : HCState) c).map
        (fun p => pre ++ TAG_GVInitValue :: p.2)
    else some pre
  | none => some pre

/-- The signature-hash bytes before the conditional calling-convention
block (attributes, optional GC and section names, vararg flag). -/
def sigPrefix (F : Func) : List Nat :=
  attributeListHash F.attrs
    ++ (match F.gc with | some g => TAG_Signature_GC :: memHash g | none => [])
    ++ (match F.sect with | some s => TAG_Signature_Sec :: memHash s | none => [])
    ++ TAG_Signature_VarArg :: bByte F.fnTy.isVarArgTy

/-- The signature-hash bytes after the conditional calling-convention
block (the function type and the argument-list tag). -/
def sigSuffix (F : Func) : List Nat :=
  typeHash F.fnTy ++ [TAG_Signature_Arg]

/-- A concrete one-block function (`ret void` only) used as a witness
input. -/
def F0ex : Func :=
  Func.mk [] none none 0 (.func [] false .void) [] 0
    [Block.mk 0 [] [Inst.mk 1 .void 0 [] .plain] []]

/-- A concrete unreachable block used as a witness input. -/
def B0ex : Block := Block.mk 7 [] [Inst.mk 1 .void 0 [] .plain] []

/-- The comdat contribution: present comdats add their hash, absent ones
add nothing. -/
def comdatPart : Option (List Nat × Nat) → List Nat
  | some c => comdatHash c
  | none => []

/-- The bytes `calculateVaribleHash` emits before the optional
initializer block, as a function of the hashed fields. -/
def varPreB (M : ModuleM) (vt : Ty) (b : Bool) (tlm al ua : Nat)
    (com : Option (List Nat × Nat)) : List Nat :=
  TAG_GlobalVarible :: moduleHashStream M
    ++ typeHash vt
    ++ TAG_GVConstant :: bByte b
    ++ [TAG_GVThreadLocalMode, tlm]
    ++ TAG_GVAlignment :: numberHash al
    ++ [TAG_GVUnnamedAddr, ua]
    ++ comdatPart com

/-!  ## Renaming of anonymous values (for the sn_map invariance argument)

A consistent renaming replaces the identity of every anonymous
(non-constant, non-global) value — arguments, instruction results, basic
blocks — by `ρ` and its textual name arbitrarily (`ν`/`νb`); constants,
globals, types and all other fields are untouched. -/

mutual
/-- Renaming inside constants: only `BlockAddress` basic-block references
are anonymous values. -/
def renameConst (ρ : Nat → Nat) : Const → Const
  | .blockAddrC ty fnTy bb => .blockAddrC ty fnTy (ρ bb)
  | .arrayC ty es => .arrayC ty (renameConstList ρ es)
  | .structC ty es => .structC ty (renameConstList ρ es)
  | .vectorC ty es => .vectorC ty (renameConstList ρ es)
  | .exprC ty op ops => .exprC ty op (renameConstList ρ ops)
  | c => c

def renameConstList (ρ : Nat → Nat) : List Const → List Const
  | [] => []
  | c :: cs => renameConst ρ c :: renameConstList ρ cs
end

/-- Renaming applied to the module environment.  When the renaming only
touches values owned by the renamed function (the usual case: no other
global's initializer block-addresses into it), this is the identity. -/
def renameGEnv (ρ : Nat → Nat) (env : GEnv) : GEnv :=
  ⟨env.inits.map (fun p => (p.1, renameConst ρ p.2)), env.guid⟩

def renameVal (ρ : Nat → Nat) (ν : Nat → List Nat) : Val → Val
  | .cst c => .cst (renameConst ρ c)
  | .asm a => .asm a
  | .loc id ty _ => .loc (ρ id) ty (ν id)

def renameExtra (ρ : Nat → Nat) (ν : Nat → List Nat) : InstExtra → InstExtra
  | .phi incoming => .phi (incoming.map (renameVal ρ ν))
  | e => e

def renameInst (ρ : Nat → Nat) (ν : Nat → List Nat) (i : Inst) : Inst :=
  ⟨i.opcode, i.ty, i.subclassOptData, i.operands.map (renameVal ρ ν),
    renameExtra ρ ν i.extra⟩

def renameBlock (ρ : Nat → Nat) (ν νb : Nat → List Nat) (b : Block) : Block :=
  ⟨ρ b.bid, νb b.bid, b.insts.map (renameInst ρ ν), b.succs.map ρ⟩

def renameFunc (ρ : Nat → Nat) (ν νb : Nat → List Nat) (F : Func) : Func :=
  ⟨F.attrs, F.gc, F.sect, F.cc, F.fnTy, F.args.map (renameVal ρ ν),
    ρ F.entry, F.blocks.map (renameBlock ρ ν νb)⟩

/-- The hasher-state correspondence under a renaming: global numbering is
untouched, the sn_map keys are renamed pointwise. -/
def mapState (ρ : Nat → Nat) (st : HCState) : HCState :=
  ⟨st.globalNumbers, st.snMap.map ρ⟩

/-- A concrete function with one argument and an add/ret body, used as a
witness input for the renaming claim (the shape of scenario S6). -/
def F1ex : Func :=
  Func.mk [] none none 0 (.func [.int 32] false (.int 32))
    [Val.loc 10 (.int 32) [37]] 0
    [Block.mk 0 []
      [Inst.mk 11 (.int 32) 0
        [Val.loc 10 (.int 32) [37], Val.cst (.intC (.int 32) ⟨[1]⟩)] .plain,
       Inst.mk 1 .void 0 [Val.loc 11 (.int 32) [38]] .plain] []]

/-!  # Theorems -/

/-!  ## C5: APIntHash serialization -/

/-- Rewriting the source's fold: the emitted stream is the tag followed by
the concatenated word encodings. -/
theorem APIntHash_foldl (acc : List Nat) (ws : List Nat) :
    ws.foldl (fun a w => a ++ numberHash w) acc
      = acc ++ (ws.map numberHash).flatten := by
  induction ws generalizing acc with
  | nil => simp
  | cons w ws ih => simp [List.foldl_cons, ih, List.append_assoc]

/-- C5 counterexample: for the one-word integer 5, the stream the source
emits is not the spec's tag/length/limbs serialization (no length field is
written). -/
theorem APIntHash_ne_spec_at_five : APIntHash ⟨[5]⟩ ≠ APIntHashSpec ⟨[5]⟩ := by
  decide

/-- C5 (amended): `APIntHash` serializes an arbitrary-precision integer as
the tag `TAG_APInt` followed directly by the raw 64-bit word sequence in
order, with no length field. -/
theorem APIntHash_eq_tag_words (v : APIntV) :
    APIntHash v = TAG_APInt :: (v.words.map numberHash).flatten := by
  unfold APIntHash
  rw [APIntHash_foldl]
  simp

/-!  ## C8: ticket file acceptance -/

/-- C8: `getTicketFileUuid` succeeds exactly on 24-byte files whose first
8 bytes are "RepoUuid", in which case it returns bytes 8-23; on any other
length or signature it fails fatally with a diagnostic that contains
"was not a Repo ticket file". -/
theorem getTicketFileUuid_spec (tp out c : List Nat) :
    ((∃ u, getTicketFileUuid tp out c = .ok u)
        ↔ (c.length = 24 ∧ c.take 8 = repoUuidSig))
    ∧ (∀ u, getTicketFileUuid tp out c = .ok u → u = (c.drop 8).take 16)
    ∧ (¬ (c.length = 24 ∧ c.take 8 = repoUuidSig) →
        ∃ pre, getTicketFileUuid tp out c
          = .error (pre ++ strBytes "was not a Repo ticket file")) := by
  unfold getTicketFileUuid
  refine ⟨⟨?_, ?_⟩, ?_, ?_⟩
  · intro ⟨u, hu⟩
    by_cases h1 : c.length = 24 <;> by_cases h2 : c.take 8 = repoUuidSig <;>
      simp [h1, h2] at hu ⊢
  · rintro ⟨h1, h2⟩
    exact ⟨(c.drop 8).take 16, by simp [h1, h2]⟩
  · intro u hu
    by_cases h1 : c.length = 24 <;> by_cases h2 : c.take 8 = repoUuidSig <;>
      simp [h1, h2] at hu
    exact hu.symm
  · intro h
    refine ⟨strBytes "File \"" ++ out ++ strBytes "\" ", ?_⟩
    have hmsg : ticketFileMsg out
        = (strBytes "File \"" ++ out ++ strBytes "\" ")
            ++ strBytes "was not a Repo ticket file" := by
      unfold ticketFileMsg
      simp [strBytes]
    by_cases h1 : c.length = 24
    · by_cases h2 : c.take 8 = repoUuidSig
      · exact absurd ⟨h1, h2⟩ h
      · simp [h1, h2, hmsg]
    · simp [h1, hmsg]

/-- C8 witness: a concrete accepted file and a concrete rejected file. -/
theorem getTicketFileUuid_spec_witness :
    getTicketFileUuid [1] [2] (repoUuidSig ++ List.range 16)
        = .ok (List.range 16)
    ∧ ∃ pre, getTicketFileUuid [1] [2] [0]
        = .error (pre ++ strBytes "was not a Repo ticket file") := by
  constructor
  · have h := ((getTicketFileUuid_spec [1] [2]
        (repoUuidSig ++ List.range 16)).2.1) (List.range 16)
    have hok : getTicketFileUuid [1] [2] (repoUuidSig ++ List.range 16)
        = .ok ((repoUuidSig ++ List.range 16).drop 8 |>.take 16) := rfl
    rw [hok]
    rfl
  · exact (getTicketFileUuid_spec [1] [2] [0]).2.2 (by decide)

/-!  ## C10: the rejected-ticket diagnostic embeds the output filename -/

/-- C10: the fatal "was not a Repo ticket file" diagnostic interpolates the
output filename (the `-o` value, default `./a.out`), and the result of
`getTicketFileUuid` does not depend on the ticket path that was read at
all: the message for a wrong-size file is exactly
`File "<OutputFilename>" was not a Repo ticket file`. -/
theorem ticketDiagnostic_uses_outputFilename (tp tp' out c : List Nat) :
    getTicketFileUuid tp out c = getTicketFileUuid tp' out c
    ∧ (c.length ≠ 24 →
        getTicketFileUuid tp out c
          = .error (strBytes "File \"" ++ out
              ++ strBytes "\" was not a Repo ticket file")) := by
  refine ⟨rfl, fun h => ?_⟩
  unfold getTicketFileUuid ticketFileMsg
  simp [h]

/-- C10 witness: with ticket path "t" and output file "./a.out", a 23-byte
ticket file produces the diagnostic naming "./a.out". -/
theorem ticketDiagnostic_uses_outputFilename_witness :
    getTicketFileUuid (strBytes "t") (strBytes "./a.out") (List.range 23)
      = .error (strBytes "File \"" ++ strBytes "./a.out"
          ++ strBytes "\" was not a Repo ticket file") :=
  (ticketDiagnostic_uses_outputFilename (strBytes "t") (strBytes "tt")
    (strBytes "./a.out") (List.range 23)).2 (by decide)

/-!  ## C9: common-linkage members -/

/-- C9: a common-linkage ticket member fails fatally (diagnostic naming the
symbol) unless its fragment has exactly one section which is BSS; when the
check passes, the inserted symbol has no output section, offset 0 and the
BSS data size, and no section data is appended. -/
theorem processCommonMember_spec (name : List Nat) (frag : Fragment) :
    (¬ (frag.numSections = 1 ∧ frag.hasSection .bss) →
        ∃ pre post, processCommonMember name frag
          = .error (pre ++ name ++ post))
    ∧ (frag.numSections = 1 → frag.hasSection .bss →
        processCommonMember name frag
          = .ok (⟨name, none, 0, (frag.getSection .bss).data.length,
                  .common⟩, [])) := by
  constructor
  · intro h
    refine ⟨strBytes "Fragment for common symbol \"",
      strBytes "\" did not contain a sole BSS section", ?_⟩
    unfold processCommonMember commonErrMsg
    have hcond : frag.numSections ≠ 1 ∨ ¬ frag.hasSection .bss := by
      by_cases h1 : frag.numSections = 1
      · by_cases h2 : frag.hasSection .bss
        · exact absurd ⟨h1, h2⟩ h
        · exact Or.inr (by simp [h2])
      · exact Or.inl h1
    simp only [if_pos hcond]
  · intro h1 h2
    unfold processCommonMember
    have hcond : ¬ (frag.numSections ≠ 1 ∨ ¬ frag.hasSection .bss) := by
      simp [h1, h2]
    simp only [if_neg hcond]

/-- C9 witness: a sole-BSS fragment is accepted with the BSS data size as
the symbol size; a text-only fragment for a common symbol is a fatal error
whose diagnostic embeds the symbol name. -/
theorem processCommonMember_spec_witness :
    processCommonMember (strBytes "x") ⟨[(.bss, ⟨[0, 0, 0], 4⟩)]⟩
        = .ok (⟨strBytes "x", none, 0, 3, .common⟩, [])
    ∧ ∃ pre post, processCommonMember (strBytes "x") ⟨[(.text, ⟨[9], 1⟩)]⟩
        = .error (pre ++ strBytes "x" ++ post) := by
  constructor
  · have h := (processCommonMember_spec (strBytes "x")
      ⟨[(.bss, ⟨[0, 0, 0], 4⟩)]⟩).2 (by decide) (by decide)
    rw [h]
    rfl
  · exact (processCommonMember_spec (strBytes "x") ⟨[(.text, ⟨[9], 1⟩)]⟩).1
      (by decide)

/-!  ## C2: cycle-breaking and termination of constantHash -/

theorem snEmit_globalNumbers (st : HCState) (id : Nat) :
    (snEmit st id).1.globalNumbers = st.globalNumbers := by
  unfold snEmit
  split <;> rfl

theorem constantHashF_globalVar (env : GEnv) (f : Nat) (st : HCState)
    (ty : Ty) (g : Nat) :
    constantHashF env (f + 1) st (.globalVarC ty g)
      = match env.inits.lookup g with
        | some init =>
          if st.globalNumbers.contains g then
            (globalValueHashF env f st g).map
              (fun p => (p.1, TAG_Constant :: typeHash ty ++ p.2))
          else
            (constantHashF env f ⟨st.globalNumbers ++ [g], st.snMap⟩ init).map
              (fun p => (p.1, TAG_Constant :: typeHash ty ++ p.2))
        | none => some (st, TAG_Constant :: typeHash ty) := rfl

theorem globalValueHashF_eq (env : GEnv) (f : Nat) (st : HCState) (g : Nat) :
    globalValueHashF env (f + 1) st g
      = match env.inits.lookup g with
        | some init =>
          if st.globalNumbers.contains g then
            some (st, numberHash (env.guid g)
              ++ numberHash (st.globalNumbers.findIdx (fun x => x = g)))
          else
            (constantHashF env f ⟨st.globalNumbers ++ [g], st.snMap⟩ init).map
              (fun p => (p.1, numberHash (env.guid g) ++ p.2))
        | none => some (st, numberHash (env.guid g)) := rfl

theorem hashF_mono_step (env : GEnv) : ∀ f,
    (∀ st c r, constantHashF env f st c = some r →
      constantHashF env (f + 1) st c = some r)
    ∧ (∀ st cs r, constListHashF env f st cs = some r →
      constListHashF env (f + 1) st cs = some r)
    ∧ (∀ st g r, globalValueHashF env f st g = some r →
      globalValueHashF env (f + 1) st g = some r) := by
  intro f
  induction f with
  | zero =>
    refine ⟨?_, ?_, ?_⟩ <;> intro st x r h <;>
      simp [constantHashF, constListHashF, globalValueHashF] at h
  | succ f ih =>
    obtain ⟨ihc, ihl, ihg⟩ := ih
    refine ⟨?_, ?_, ?_⟩
    · intro st c r h
      cases c with
      | globalVarC ty g =>
        simp only [constantHashF] at h ⊢
        cases hl : env.inits.lookup g with
        | none => rw [hl] at h; exact h
        | some init =>
          rw [hl] at h
          by_cases hc : st.globalNumbers.contains g
          · simp only [hc, if_pos] at h ⊢
            rw [Option.map_eq_some'] at h ⊢
            obtain ⟨p, hp, hr⟩ := h
            exact ⟨p, ihg _ _ _ hp, hr⟩
          · simp only [hc, if_neg, Bool.false_eq_true, not_false_iff] at h ⊢
            rw [Option.map_eq_some'] at h ⊢
            obtain ⟨p, hp, hr⟩ := h
            exact ⟨p, ihc _ _ _ hp, hr⟩
      | arrayC ty es =>
        simp only [constantHashF] at h ⊢
        rw [Option.map_eq_some'] at h ⊢
        obtain ⟨p, hp, hr⟩ := h
        exact ⟨p, ihl _ _ _ hp, hr⟩
      | structC ty es =>
        simp only [constantHashF] at h ⊢
        rw [Option.map_eq_some'] at h ⊢
        obtain ⟨p, hp, hr⟩ := h
        exact ⟨p, ihl _ _ _ hp, hr⟩
      | vectorC ty es =>
        simp only [constantHashF] at h ⊢
        rw [Option.map_eq_some'] at h ⊢
        obtain ⟨p, hp, hr⟩ := h
        exact ⟨p, ihl _ _ _ hp, hr⟩
      | exprC ty op ops =>
        simp only [constantHashF] at h ⊢
        rw [Option.map_eq_some'] at h ⊢
        obtain ⟨p, hp, hr⟩ := h
        exact ⟨p, ihl _ _ _ hp, hr⟩
      | intC ty v => simpa [constantHashF] using h
      | fpC ty sem bits => simpa [constantHashF] using h
      | leafC ty vid => simpa [constantHashF] using h
      | dataC ty vid bytes => simpa [constantHashF] using h
      | blockAddrC ty fnTy bb => simpa [constantHashF] using h
      | otherGVC ty => simpa [constantHashF] using h
    · intro st cs r h
      cases cs with
      | nil => simpa [constListHashF] using h
      | cons c cs =>
        simp only [constListHashF, Option.bind_eq_bind, Option.bind_eq_some] at h ⊢
        obtain ⟨p, hp, q, hq, hr⟩ := h
        exact ⟨p, ihc _ _ _ hp, q, ihl _ _ _ hq, hr⟩
    · intro st g r h
      simp only [globalValueHashF] at h ⊢
      cases hl : env.inits.lookup g with
      | none => rw [hl] at h; exact h
      | some init =>
        rw [hl] at h
        by_cases hc : st.globalNumbers.contains g
        · simp only [hc, if_pos] at h ⊢
          exact h
        · simp only [hc, if_neg, Bool.false_eq_true, not_false_iff] at h ⊢
          rw [Option.map_eq_some'] at h ⊢
          obtain ⟨p, hp, hr⟩ := h
          exact ⟨p, ihc _ _ _ hp, hr⟩

theorem constantHashF_mono (env : GEnv) {f f' : Nat} (hle : f ≤ f') :
    ∀ {st c r}, constantHashF env f st c = some r →
      constantHashF env f' st c = some r := by
  induction hle with
  | refl => exact fun h => h
  | step _ ih =>
    intro st c r h
    exact (hashF_mono_step env _).1 _ _ _ (ih h)

theorem constListHashF_mono (env : GEnv) {f f' : Nat} (hle : f ≤ f') :
    ∀ {st cs r}, constListHashF env f st cs = some r →
      constListHashF env f' st cs = some r := by
  induction hle with
  | refl => exact fun h => h
  | step _ ih =>
    intro st cs r h
    exact (hashF_mono_step env _).2.1 _ _ _ (ih h)

theorem hashF_growth (env : GEnv) : ∀ f,
    (∀ st c st2 s, constantHashF env f st c = some (st2, s) →
      ∀ x, x ∈ st.globalNumbers → x ∈ st2.globalNumbers)
    ∧ (∀ st cs st2 s, constListHashF env f st cs = some (st2, s) →
      ∀ x, x ∈ st.globalNumbers → x ∈ st2.globalNumbers)
    ∧ (∀ st g st2 s, globalValueHashF env f st g = some (st2, s) →
      ∀ x, x ∈ st.globalNumbers → x ∈ st2.globalNumbers) := by
  intro f
  induction f with
  | zero =>
    refine ⟨?_, ?_, ?_⟩ <;> intro st x st2 s h <;>
      simp [constantHashF, constListHashF, globalValueHashF] at h
  | succ f ih =>
    obtain ⟨ihc, ihl, ihg⟩ := ih
    refine ⟨?_, ?_, ?_⟩
    · intro st c st2 s h
      cases c with
      | globalVarC ty g =>
        simp only [constantHashF] at h
        cases hl : env.inits.lookup g with
        | none =>
          rw [hl] at h
          cases h
          exact fun x hx => hx
        | some init =>
          rw [hl] at h
          by_cases hc : st.globalNumbers.contains g
          · simp only [hc, if_pos] at h
            rw [Option.map_eq_some'] at h
            obtain ⟨⟨st1, s1⟩, hp, hr⟩ := h
            cases hr
            exact ihg _ _ _ _ hp
          · simp only [hc, if_neg, Bool.false_eq_true, not_false_iff] at h
            rw [Option.map_eq_some'] at h
            obtain ⟨⟨st1, s1⟩, hp, hr⟩ := h
            cases hr
            intro x hx
            exact ihc _ _ _ _ hp x (by simp [hx])
      | arrayC ty es =>
        simp only [constantHashF] at h
        rw [Option.map_eq_some'] at h
        obtain ⟨⟨st1, s1⟩, hp, hr⟩ := h
        cases hr
        exact ihl _ _ _ _ hp
      | structC ty es =>
        simp only [constantHashF] at h
        rw [Option.map_eq_some'] at h
        obtain ⟨⟨st1, s1⟩, hp, hr⟩ := h
        cases hr
        exact ihl _ _ _ _ hp
      | vectorC ty es =>
        simp only [constantHashF] at h
        rw [Option.map_eq_some'] at h
        obtain ⟨⟨st1, s1⟩, hp, hr⟩ := h
        cases hr
        exact ihl _ _ _ _ hp
      | exprC ty op ops =>
        simp only [constantHashF] at h
        rw [Option.map_eq_some'] at h
        obtain ⟨⟨st1, s1⟩, hp, hr⟩ := h
        cases hr
        exact ihl _ _ _ _ hp
      | intC ty v =>
        simp only [constantHashF, Option.some_inj] at h
        cases h
        exact fun x hx => hx
      | fpC ty sem bits =>
        simp only [constantHashF, Option.some_inj] at h
        cases h
        exact fun x hx => hx
      | leafC ty vid =>
        simp only [constantHashF, Option.some_inj] at h
        cases h
        exact fun x hx => hx
      | dataC ty vid bytes =>
        simp only [constantHashF, Option.some_inj] at h
        cases h
        exact fun x hx => hx
      | blockAddrC ty fnTy bb =>
        simp only [constantHashF, Option.some_inj] at h
        cases h
        rw [snEmit_globalNumbers]
        exact fun x hx => hx
      | otherGVC ty =>
        simp only [constantHashF, Option.some_inj] at h
        cases h
        exact fun x hx => hx
    · intro st cs st2 s h
      cases cs with
      | nil =>
        simp only [constListHashF, Option.some_inj] at h
        cases h
        exact fun x hx => hx
      | cons c cs =>
        simp only [constListHashF, Option.bind_eq_bind, Option.bind_eq_some] at h
        obtain ⟨⟨st1, s1⟩, hp, ⟨st3, s3⟩, hq, hr⟩ := h
        cases hr
        intro x hx
        exact ihl _ _ _ _ hq x (ihc _ _ _ _ hp x hx)
    · intro st g st2 s h
      simp only [globalValueHashF] at h
      cases hl : env.inits.lookup g with
      | none =>
        rw [hl] at h
        cases h
        exact fun x hx => hx
      | some init =>
        rw [hl] at h
        by_cases hc : st.globalNumbers.contains g
        · simp only [hc, if_pos, Option.some_inj] at h
          cases h
          exact fun x hx => hx
        · simp only [hc, if_neg, Bool.false_eq_true, not_false_iff] at h
          rw [Option.map_eq_some'] at h
          obtain ⟨⟨st1, s1⟩, hp, hr⟩ := h
          cases hr
          intro x hx
          exact ihc _ _ _ _ hp x (by simp [hx])

theorem countP_congr_mem (p q : Nat → Bool) :
    ∀ (U : List Nat), (∀ x ∈ U, p x = q x) → U.countP p = U.countP q := by
  intro U
  induction U with
  | nil => intro _; rfl
  | cons a U ih =>
    intro h
    rw [List.countP_cons, List.countP_cons, h a (by simp),
      ih (fun x hx => h x (by simp [hx]))]

theorem countP_le_of_imp (p q : Nat → Bool) :
    ∀ (U : List Nat), (∀ x, p x = true → q x = true) →
      U.countP p ≤ U.countP q := by
  intro U h
  induction U with
  | nil => exact le_rfl
  | cons a U ih =>
    rw [List.countP_cons, List.countP_cons]
    by_cases hp : p a = true
    · rw [hp, h a hp]
      omega
    · have : U.countP p + (if p a = true then 1 else 0) ≤ U.countP p := by
        simp [hp]
      refine le_trans this (le_trans ih ?_)
      omega

theorem countP_append_single (vis : List Nat) (g : Nat) :
    ∀ (U : List Nat), U.Nodup → g ∈ U → g ∉ vis →
      U.countP (fun x => !((vis ++ [g]).contains x)) + 1
        = U.countP (fun x => !(vis.contains x)) := by
  intro U
  induction U with
  | nil => intro _ hg; cases hg
  | cons a U ih =>
    intro hnd hg hv
    have hnd2 : U.Nodup := (List.nodup_cons.mp hnd).2
    have ha : a ∉ U := (List.nodup_cons.mp hnd).1
    rw [List.countP_cons, List.countP_cons]
    by_cases hag : a = g
    · subst hag
      have h1 : (!((vis ++ [a]).contains a)) = false := by simp
      have h2 : (!(vis.contains a)) = true := by simpa using hv
      rw [h1, h2]
      have hcong : U.countP (fun x => !((vis ++ [a]).contains x))
          = U.countP (fun x => !(vis.contains x)) := by
        refine countP_congr_mem _ _ U (fun x hx => ?_)
        have hxa : x ≠ a := fun hxa => ha (hxa ▸ hx)
        simp [hxa]
      rw [hcong]
      simp
    · have hgU : g ∈ U := by
        cases hg with
        | head => exact absurd rfl hag
        | tail _ h => exact h
      have hpq : (!((vis ++ [g]).contains a)) = (!(vis.contains a)) := by
        have : a ≠ g := hag
        simp [this]
      rw [hpq]
      have := ih hnd2 hgU hv
      omega

theorem lookup_mem_keys {g : Nat} {v : Const} :
    ∀ {l : List (Nat × Const)}, l.lookup g = some v → g ∈ l.map Prod.fst := by
  intro l
  induction l with
  | nil => intro h; simp [List.lookup] at h
  | cons p l ih =>
    intro h
    rw [List.lookup] at h
    by_cases hk : g = p.1
    · simp [hk]
    · have hbeq : (g == p.1) = false := by simpa using hk
      rw [hbeq] at h
      simp only [List.map_cons, List.mem_cons]
      exact Or.inr (ih h)

theorem unvisG_mono (env : GEnv) (gn gn' : List Nat)
    (h : ∀ x, x ∈ gn → x ∈ gn') :
    unvisG env gn' ≤ unvisG env gn := by
  refine countP_le_of_imp _ _ _ (fun x hx => ?_)
  have : x ∉ gn' := by simpa using hx
  have : x ∉ gn := fun hmem => this (h x hmem)
  simpa using this

theorem unvisG_push (env : GEnv) (gn : List Nat) (g : Nat) (init : Const)
    (hg : env.inits.lookup g = some init) (hv : g ∉ gn) :
    unvisG env (gn ++ [g]) + 1 = unvisG env gn := by
  refine countP_append_single gn g (envIds env) (List.nodup_dedup _) ?_ hv
  have := lookup_mem_keys hg
  unfold envIds
  simpa using this

theorem constantHashF_total (env : GEnv) :
    ∀ u st c, unvisG env st.globalNumbers = u →
      ∃ f r, constantHashF env f st c = some r := by
  intro u
  induction u using Nat.strong_induction_on with
  | _ u ihu =>
  suffices H : ∀ n c st, sizeOf c ≤ n → unvisG env st.globalNumbers = u →
      ∃ f r, constantHashF env f st c = some r by
    intro st c hu
    exact H (sizeOf c) c st le_rfl hu
  intro n
  induction n using Nat.strong_induction_on with
  | _ n ihn =>
  intro c st hsz hu
  have Helem : ∀ (e : Const) st', sizeOf e < n →
      unvisG env st'.globalNumbers ≤ u →
      ∃ f r, constantHashF env f st' e = some r := by
    intro e st' hsz' hle
    rcases lt_or_eq_of_le hle with hlt | heq
    · exact ihu _ hlt st' e rfl
    · exact ihn (sizeOf e) hsz' e st' le_rfl heq
  have Hlist : ∀ (es : List Const) st', (∀ e ∈ es, sizeOf e < n) →
      unvisG env st'.globalNumbers ≤ u →
      ∃ f r, constListHashF env f st' es = some r := by
    intro es
    induction es with
    | nil => exact fun st' _ _ => ⟨1, (st', []), rfl⟩
    | cons e es ihes =>
      intro st' hsz' hle
      obtain ⟨f1, ⟨st1, s1⟩, h1⟩ := Helem e st' (hsz' e (by simp)) hle
      have hgrow := (hashF_growth env f1).1 _ _ _ _ h1
      have hle1 : unvisG env st1.globalNumbers ≤ u :=
        le_trans (unvisG_mono env _ _ hgrow) hle
      obtain ⟨f2, ⟨st2, s2⟩, h2⟩ :=
        ihes st1 (fun e he => hsz' e (by simp [he])) hle1
      refine ⟨max f1 f2 + 1, (st2, s1 ++ s2), ?_⟩
      have h1' := constantHashF_mono env (le_max_left f1 f2) h1
      have h2' := constListHashF_mono env (le_max_right f1 f2) h2
      simp [constListHashF, h1', h2']
  cases c with
  | intC ty v => exact ⟨1, _, rfl⟩
  | fpC ty sem bits => exact ⟨1, _, rfl⟩
  | leafC ty vid => exact ⟨1, _, rfl⟩
  | dataC ty vid bytes => exact ⟨1, _, rfl⟩
  | otherGVC ty => exact ⟨1, _, rfl⟩
  | blockAddrC ty fnTy bb => exact ⟨1, _, rfl⟩
  | arrayC ty es =>
    have hes : ∀ e ∈ es, sizeOf e < n := by
      intro e he
      have h1 : sizeOf e < sizeOf es := List.sizeOf_lt_of_mem he
      have h2 : sizeOf (Const.arrayC ty es) = 1 + sizeOf ty + sizeOf es :=
        Const.arrayC.sizeOf_spec ty es
      omega
    obtain ⟨f, ⟨st2, s⟩, h⟩ := Hlist es st hes (le_of_eq hu)
    refine ⟨f + 1, (st2, TAG_Constant :: typeHash ty
      ++ numberHash vidConstantArray ++ s), ?_⟩
    have heq : constantHashF env (f + 1) st (Const.arrayC ty es)
        = (constListHashF env f st es).map
            (fun p => (p.1, TAG_Constant :: typeHash ty
              ++ numberHash vidConstantArray ++ p.2)) := rfl
    rw [heq, h]
    rfl
  | structC ty es =>
    have hes : ∀ e ∈ es, sizeOf e < n := by
      intro e he
      have h1 : sizeOf e < sizeOf es := List.sizeOf_lt_of_mem he
      have h2 : sizeOf (Const.structC ty es) = 1 + sizeOf ty + sizeOf es :=
        Const.structC.sizeOf_spec ty es
      omega
    obtain ⟨f, ⟨st2, s⟩, h⟩ := Hlist es st hes (le_of_eq hu)
    refine ⟨f + 1, (st2, TAG_Constant :: typeHash ty
      ++ numberHash vidConstantStruct ++ s), ?_⟩
    have heq : constantHashF env (f + 1) st (Const.structC ty es)
        = (constListHashF env f st es).map
            (fun p => (p.1, TAG_Constant :: typeHash ty
              ++ numberHash vidConstantStruct ++ p.2)) := rfl
    rw [heq, h]
    rfl
  | vectorC ty es =>
    have hes : ∀ e ∈ es, sizeOf e < n := by
      intro e he
      have h1 : sizeOf e < sizeOf es := List.sizeOf_lt_of_mem he
      have h2 : sizeOf (Const.vectorC ty es) = 1 + sizeOf ty + sizeOf es :=
        Const.vectorC.sizeOf_spec ty es
      omega
    obtain ⟨f, ⟨st2, s⟩, h⟩ := Hlist es st hes (le_of_eq hu)
    refine ⟨f + 1, (st2, TAG_Constant :: typeHash ty
      ++ numberHash vidConstantVector ++ s), ?_⟩
    have heq : constantHashF env (f + 1) st (Const.vectorC ty es)
        = (constListHashF env f st es).map
            (fun p => (p.1, TAG_Constant :: typeHash ty
              ++ numberHash vidConstantVector ++ p.2)) := rfl
    rw [heq, h]
    rfl
  | exprC ty op ops =>
    have hes : ∀ e ∈ ops, sizeOf e < n := by
      intro e he
      have h1 : sizeOf e < sizeOf ops := List.sizeOf_lt_of_mem he
      have h2 : sizeOf (Const.exprC ty op ops)
          = 1 + sizeOf ty + sizeOf op + sizeOf ops :=
        Const.exprC.sizeOf_spec ty op ops
      omega
    obtain ⟨f, ⟨st2, s⟩, h⟩ := Hlist ops st hes (le_of_eq hu)
    refine ⟨f + 1, (st2, TAG_Constant :: typeHash ty
      ++ numberHash vidConstantExpr ++ s), ?_⟩
    have heq : constantHashF env (f + 1) st (Const.exprC ty op ops)
        = (constListHashF env f st ops).map
            (fun p => (p.1, TAG_Constant :: typeHash ty
              ++ numberHash vidConstantExpr ++ p.2)) := rfl
    rw [heq, h]
    rfl
  | globalVarC ty g =>
    cases hl : env.inits.lookup g with
    | none =>
      exact ⟨1, (st, TAG_Constant :: typeHash ty),
        by rw [constantHashF_globalVar, hl]⟩
    | some init =>
      by_cases hc : st.globalNumbers.contains g
      · refine ⟨2, (st, TAG_Constant :: typeHash ty
          ++ (numberHash (env.guid g)
            ++ numberHash (st.globalNumbers.findIdx (fun x => x = g)))), ?_⟩
        rw [constantHashF_globalVar]
        simp only [hl]
        rw [if_pos hc, globalValueHashF_eq]
        simp only [hl]
        rw [if_pos hc]
        rfl
      · have hv : g ∉ st.globalNumbers := by simpa using hc
        have hdec := unvisG_push env st.globalNumbers g init hl hv
        have hlt : unvisG env (st.globalNumbers ++ [g]) < u := by omega
        obtain ⟨f, ⟨st2, s⟩, h⟩ :=
          ihu _ hlt ⟨st.globalNumbers ++ [g], st.snMap⟩ init rfl
        refine ⟨f + 1, (st2, TAG_Constant :: typeHash ty ++ s), ?_⟩
        rw [constantHashF_globalVar]
        simp only [hl]
        rw [if_neg hc, h]
        rfl

/-- C2: `constantHash` terminates on every constant graph (a finite budget
always suffices); a global variable already in the global-numbering map is
hashed as its GUID and recorded number only, with the state unchanged and
no recursion into the initializer; a first visit records the global with
the next integer (the map size) and recurses into the initializer; and a
global variable whose initializer references itself produces a digest in
bounded time (budget 3 suffices, the second visit contributing the GUID
and number 0). -/
theorem constantHash_cycle_termination :
    (∀ (env : GEnv) (st : HCState) (c : Const),
      ∃ f r, constantHashF env f st c = some r)
    ∧ (∀ (env : GEnv) (st : HCState) (ty : Ty) (g : Nat) (f : Nat),
        st.globalNumbers.contains g = true → (env.inits.lookup g).isSome →
        constantHashF env (f + 2) st (.globalVarC ty g)
          = some (st, TAG_Constant :: typeHash ty
              ++ (numberHash (env.guid g)
                ++ numberHash (st.globalNumbers.findIdx (fun x => x = g)))))
    ∧ (∀ (env : GEnv) (st : HCState) (ty : Ty) (g : Nat) (init : Const)
        (f : Nat),
        st.globalNumbers.contains g = false →
        env.inits.lookup g = some init →
        constantHashF env (f + 1) st (.globalVarC ty g)
          = (constantHashF env f ⟨st.globalNumbers ++ [g], st.snMap⟩
              init).map
              (fun p => (p.1, TAG_Constant :: typeHash ty ++ p.2)))
    ∧ (∀ (ty : Ty) (g : Nat) (guid : Nat → Nat),
        constantHashF ⟨[(g, .globalVarC ty g)], guid⟩ 3 ⟨[], []⟩
            (.globalVarC ty g)
          = some (⟨[g], []⟩, TAG_Constant :: typeHash ty
              ++ (TAG_Constant :: typeHash ty
                ++ (numberHash (guid g) ++ numberHash 0)))) := by
  refine ⟨?_, ?_, ?_, ?_⟩
  · intro env st c
    exact constantHashF_total env (unvisG env st.globalNumbers) st c rfl
  · intro env st ty g f hc hsome
    obtain ⟨init, hl⟩ := Option.isSome_iff_exists.mp hsome
    rw [show f + 2 = (f + 1) + 1 from rfl, constantHashF_globalVar]
    simp only [hl]
    rw [if_pos hc, globalValueHashF_eq]
    simp only [hl]
    rw [if_pos hc]
    rfl
  · intro env st ty g init f hc hl
    rw [constantHashF_globalVar]
    simp only [hl]
    rw [if_neg (by rw [hc]; simp)]
  · intro ty g guid
    have hl : List.lookup g [(g, Const.globalVarC ty g)]
        = some (Const.globalVarC ty g) := by
      simp [List.lookup]
    have hc1 : [g].contains g = true := by simp
    rw [show (3 : Nat) = 2 + 1 from rfl, constantHashF_globalVar]
    simp only [hl, HCState.mk.injEq]
    rw [if_neg (by simp)]
    simp only [List.nil_append]
    rw [constantHashF_globalVar]
    simp only [hl]
    rw [if_pos hc1, globalValueHashF_eq]
    simp only [hl]
    rw [if_pos hc1]
    simp [List.findIdx, List.findIdx.go]

/-- C2 witness: the pieces of `constantHash_cycle_termination` applied at
concrete inputs, with the hypotheses discharged by computation. -/
theorem constantHash_cycle_termination_witness :
    constantHashF ⟨[(0, .leafC .void vidUndefValue)], fun g => g + 100⟩ 5
        ⟨[0], []⟩ (.globalVarC (.pointer 0) 0)
      = some (⟨[0], []⟩, TAG_Constant :: typeHash (.pointer 0)
          ++ (numberHash 100 ++ numberHash 0)) := by
  have h := constantHash_cycle_termination.2.1
    ⟨[(0, .leafC .void vidUndefValue)], fun g => g + 100⟩
    ⟨[0], []⟩ (.pointer 0) 0 3 (by decide) (by decide)
  simpa using h

/-!  ## C1: InsertValue/ExtractValue hash the ArrayRef object, not the
indices -/

/-- C1: the digest is not deterministic across runs.  The
InsertValue/ExtractValue tail hashes the bytes of the `ArrayRef` object
itself, so for a one-index `extractvalue` the sink receives exactly the
low 4 bytes of the heap address of the index array — independent of the
index value — and two runs that place the array at different addresses
(0x1000 vs 0x2000 here, with the identical index list `[0]`) produce
different digests for the same instruction. -/
theorem extractValueHash_is_address_dependent :
    (instructionHashF ⟨[], fun g => g⟩ 1 ⟨[], []⟩
        ⟨57, .int 32, 0, [], .extractValue 4096 [0]⟩
      ≠ instructionHashF ⟨[], fun g => g⟩ 1 ⟨[], []⟩
        ⟨57, .int 32, 0, [], .extractValue 8192 [0]⟩)
    ∧ (∀ (addr i : Nat),
        indicesObjectBytes addr [i] = (numberHash addr).take 4) := by
  constructor
  · decide
  · intro addr i
    unfold indicesObjectBytes
    rw [List.take_append_of_le_length (by simp [numberHash, leBytes])]
    norm_num

/-!  ## C6: the conditional calling-convention block of signatureHash -/

theorem leBytes_inj : ∀ (w a b : Nat), a < 256 ^ w → b < 256 ^ w →
    leBytes w a = leBytes w b → a = b := by
  intro w
  induction w with
  | zero =>
    intro a b ha hb _
    simp only [pow_zero, Nat.lt_one_iff] at ha hb
    omega
  | succ w ih =>
    intro a b ha hb h
    simp only [leBytes, List.cons.injEq] at h
    have hpow : 256 ^ (w + 1) = 256 * 256 ^ w := by ring
    have ha2 : a / 256 < 256 ^ w := by
      apply Nat.div_lt_of_lt_mul
      omega
    have hb2 : b / 256 < 256 ^ w := by
      apply Nat.div_lt_of_lt_mul
      omega
    have := ih (a / 256) (b / 256) ha2 hb2 h.2
    omega

theorem signatureHashF_decomp (env : GEnv) (f : Nat) (st : HCState)
    (attrs : List (List Attr)) (gc sect : Option (List Nat)) (cc : Nat)
    (fnTy : Ty) (args : List Val) (entry : Nat) (blocks : List Block) :
    signatureHashF env f st (Func.mk attrs gc sect cc fnTy args entry blocks)
      = (valueListHashF env f st args).map
          (fun p => (p.1, TAG_Signature ::
            (sigPrefix (Func.mk attrs gc sect cc fnTy args entry blocks)
              ++ (if fnTy.numParams ≠ 0 ∨ (Ty.retTy fnTy).tid = 0 then
                    TAG_Signature_CC :: le32 cc
                  else [])
              ++ sigSuffix (Func.mk attrs gc sect cc fnTy args entry blocks))
            ++ p.2)) := by
  unfold signatureHashF sigPrefix sigSuffix
  cases hp : valueListHashF env f st args with
  | none => rfl
  | some p => simp [List.append_assoc]

theorem append_middle_inj (A X Y C : List Nat) :
    A ++ (X ++ C) = A ++ (Y ++ C) ↔ X = Y := by
  constructor
  · intro h
    exact List.append_cancel_right (List.append_cancel_left h)
  · intro h
    rw [h]

/-- C6: `signatureHash` emits the calling-convention block if and only if
the function type has parameters or the return type is void.  Stated
behaviorally on two functions differing only in calling convention: when
the condition fails (no parameters, non-void return) the digests agree
whatever the two calling conventions are; when it holds, the digests
agree exactly when the calling conventions agree. -/
theorem signatureHash_cc_condition (env : GEnv) (f : Nat) (st : HCState)
    (attrs : List (List Attr)) (gc sect : Option (List Nat))
    (cc1 cc2 : Nat) (fnTy : Ty) (args : List Val) (entry : Nat)
    (blocks : List Block) :
    (¬ (fnTy.numParams ≠ 0 ∨ (Ty.retTy fnTy).tid = 0) →
      signatureHashF env f st (Func.mk attrs gc sect cc1 fnTy args entry blocks)
        = signatureHashF env f st
            (Func.mk attrs gc sect cc2 fnTy args entry blocks))
    ∧ ((fnTy.numParams ≠ 0 ∨ (Ty.retTy fnTy).tid = 0) →
      cc1 < 2 ^ 32 → cc2 < 2 ^ 32 →
      (signatureHashF env f st
          (Func.mk attrs gc sect cc1 fnTy args entry blocks)).isSome →
      (signatureHashF env f st
            (Func.mk attrs gc sect cc1 fnTy args entry blocks)
          = signatureHashF env f st
              (Func.mk attrs gc sect cc2 fnTy args entry blocks)
        ↔ cc1 = cc2)) := by
  constructor
  · intro hcond
    rw [signatureHashF_decomp, signatureHashF_decomp]
    simp only [if_neg hcond]
    rfl
  · intro hcond h1 h2 hsome
    rw [signatureHashF_decomp] at hsome
    rw [signatureHashF_decomp, signatureHashF_decomp]
    cases hp : valueListHashF env f st args with
    | none =>
      rw [hp] at hsome
      simp at hsome
    | some p =>
      simp only [Option.map_some', Option.some_inj, Prod.mk.injEq,
        true_and, if_pos hcond, List.cons.injEq]
      constructor
      · intro h
        have h232 : (2 : Nat) ^ 32 = 256 ^ 4 := by norm_num
        have h5 := List.append_cancel_right h
        injection h5 with _ h6
        have h7 := List.append_cancel_right h6
        have h8 := List.append_cancel_left h7
        injection h8 with _ h9
        exact leBytes_inj 4 cc1 cc2 (h232 ▸ h1) (h232 ▸ h2) h9
      · intro h
        rw [h]

/-- C6 witness: a zero-parameter i32-returning function hashes the same
under calling conventions 0 and 8; a one-parameter function hashes
differently under them. -/
theorem signatureHash_cc_condition_witness :
    signatureHashF ⟨[], fun g => g⟩ 1 ⟨[], []⟩
        (Func.mk [] none none 0 (.func [] false (.int 32)) [] 0 [])
      = signatureHashF ⟨[], fun g => g⟩ 1 ⟨[], []⟩
        (Func.mk [] none none 8 (.func [] false (.int 32)) [] 0 [])
    ∧ ¬ (signatureHashF ⟨[], fun g => g⟩ 1 ⟨[], []⟩
        (Func.mk [] none none 0 (.func [.int 32] false (.int 32)) [] 0 [])
      = signatureHashF ⟨[], fun g => g⟩ 1 ⟨[], []⟩
        (Func.mk [] none none 8 (.func [.int 32] false (.int 32)) [] 0 [])) := by
  constructor
  · exact (signatureHash_cc_condition ⟨[], fun g => g⟩ 1 ⟨[], []⟩
      [] none none 0 8 (.func [] false (.int 32)) [] 0 []).1 (by decide)
  · intro h
    have := ((signatureHash_cc_condition ⟨[], fun g => g⟩ 1 ⟨[], []⟩
      [] none none 0 8 (.func [.int 32] false (.int 32)) [] 0 []).2
      (by decide) (by decide) (by decide) (by decide)).mp h
    exact absurd this (by decide)

/-!  ## C4: unreachable blocks do not contribute to the digest -/

theorem find?_append_single {α : Type} (l : List α) (b : α) (p : α → Bool)
    (hb : p b = false) : (l ++ [b]).find? p = l.find? p := by
  induction l with
  | nil => simp [List.find?, hb]
  | cons a l ih =>
    by_cases hpa : p a <;> simp [List.find?_cons, hpa, ih]

theorem blockLookup_addBlock (F : Func) (B : Block) (id : Nat)
    (h : id ≠ B.bid) :
    blockLookup (addBlock F B) id = blockLookup F id := by
  unfold blockLookup addBlock
  exact find?_append_single _ _ _ (by simpa using fun he => h he.symm)

theorem pushSuccs_mem (x : Nat) :
    ∀ (ss vis : List Nat), x ∈ (pushSuccs vis ss).2 → x ∈ ss := by
  intro ss
  induction ss with
  | nil => intro vis h; simp [pushSuccs] at h
  | cons s ss ih =>
    intro vis h
    by_cases hc : vis.contains s
    · simp only [pushSuccs, hc, if_pos] at h
      exact List.mem_cons_of_mem _ (ih vis h)
    · simp only [pushSuccs, hc, if_neg, Bool.false_eq_true,
        not_false_iff] at h
      cases h with
      | head => exact List.mem_cons_self _ _
      | tail _ h2 => exact List.mem_cons_of_mem _ (ih (vis ++ [s]) h2)

theorem walkF_addBlock (env : GEnv) (F : Func) (B : Block) (f : Nat)
    (hunreach : ¬ Reaches F B.bid) :
    ∀ (wf : Nat) (st : HCState) (vis stack : List Nat),
      (∀ id ∈ stack, Reaches F id) →
      walkF env (addBlock F B) f wf st vis stack
        = walkF env F f wf st vis stack := by
  intro wf
  induction wf with
  | zero => intro st vis stack _; rfl
  | succ wf ih =>
    intro st vis stack hstack
    cases stack with
    | nil => rfl
    | cons id rest =>
      have hid : Reaches F id := hstack id (by simp)
      have hne : id ≠ B.bid := fun he => hunreach (he ▸ hid)
      have hbl := blockLookup_addBlock F B id hne
      cases hfl : blockLookup F id with
      | none =>
        have hbl2 : blockLookup (addBlock F B) id = none := hbl.trans hfl
        simp only [walkF, hbl2, hfl]
        rw [ih (snEmit st id).1 vis rest
          (fun i hi => hstack i (List.mem_cons_of_mem _ hi))]
      | some bb =>
        have hbl2 : blockLookup (addBlock F B) id = some bb := hbl.trans hfl
        cases hbb : basicBlockHashF env f (snEmit st id).1 bb.insts with
        | none => simp only [walkF, hbl2, hfl, hbb]
        | some q =>
          obtain ⟨st2, sBB⟩ := q
          have hstack2 : ∀ i ∈ (pushSuccs vis bb.succs).2.reverse ++ rest,
              Reaches F i := by
            intro i hi
            rcases List.mem_append.mp hi with hi1 | hi2
            · have hmem : i ∈ bb.succs :=
                pushSuccs_mem i bb.succs vis (List.mem_reverse.mp hi1)
              exact Reaches.step hid hfl hmem
            · exact hstack i (List.mem_cons_of_mem _ hi2)
          simp only [walkF, hbl2, hfl, hbb]
          rw [ih st2 (pushSuccs vis bb.succs).1
            ((pushSuccs vis bb.succs).2.reverse ++ rest) hstack2]

/-- C4: adding a basic block that is unreachable from the entry block
(not reachable through any chain of terminator successors) does not
change the digest of `calculateFunctionHash`: the CFG walk starts at the
entry block, follows only terminator successors with a visited set, and
never visits the new block. -/
theorem calculateFunctionHash_unreachable_invariant (env : GEnv) (f : Nat)
    (M : ModuleM) (F : Func) (B : Block)
    (hunreach : ¬ Reaches F B.bid) :
    calculateFunctionHashF env f M (addBlock F B)
      = calculateFunctionHashF env f M F := by
  unfold calculateFunctionHashF
  have hsig : signatureHashF env f (⟨[], []⟩ : HCState) (addBlock F B)
      = signatureHashF env f (⟨[], []⟩ : HCState) F := rfl
  rw [hsig]
  cases hp : signatureHashF env f (⟨[], []⟩ : HCState) F with
  | none => rfl
  | some p =>
    have hentry : (addBlock F B).entry = F.entry := rfl
    simp only [Option.bind_eq_bind, Option.some_bind, hentry]
    rw [walkF_addBlock env F B f hunreach f p.1 [F.entry] [F.entry]
      (fun i hi => by
        have : i = F.entry := by simpa using hi
        exact this ▸ Reaches.entry)]

theorem F0ex_reaches_only_entry : ∀ id, Reaches F0ex id → id = 0 := by
  intro id h
  induction h with
  | entry => rfl
  | step hr hbl hs ih =>
    subst ih
    have hbb : blockLookup F0ex 0
        = some (Block.mk 0 [] [Inst.mk 1 .void 0 [] .plain] []) := rfl
    rw [hbb] at hbl
    cases hbl
    simp at hs

/-- C4 witness: appending the concrete unreachable block `B0ex` to the
one-block function `F0ex` leaves the digest unchanged. -/
theorem calculateFunctionHash_unreachable_invariant_witness :
    calculateFunctionHashF ⟨[], fun g => g⟩ 3
        ⟨strBytes "dl", strBytes "tr", []⟩ (addBlock F0ex B0ex)
      = calculateFunctionHashF ⟨[], fun g => g⟩ 3
        ⟨strBytes "dl", strBytes "tr", []⟩ F0ex :=
  calculateFunctionHash_unreachable_invariant ⟨[], fun g => g⟩ 3
    ⟨strBytes "dl", strBytes "tr", []⟩ F0ex B0ex
    (fun h => by
      have h7 := F0ex_reaches_only_entry B0ex.bid h
      exact absurd h7 (by decide))

/-!  ## C7: global-variable hash field sensitivity -/

theorem calcVar_mk_some (env : GEnv) (f : Nat) (M : ModuleM)
    (name : List Nat) (vt : Ty) (b : Bool) (tlm al ua : Nat)
    (com : Option (List Nat × Nat)) (c : Const) (lk vis dll : Nat) :
    calculateVaribleHashF env f M
        (GlobalVar.mk name vt b tlm al ua com (some c) lk vis dll)
      = if name ≠ [] then
          (constantHashF env f (⟨[], []⟩ : HCState) c).map
            (fun p => varPreB M vt b tlm al ua com ++ TAG_GVInitValue :: p.2)
        else some (varPreB M vt b tlm al ua com) := rfl

theorem calcVar_mk_none (env : GEnv) (f : Nat) (M : ModuleM)
    (name : List Nat) (vt : Ty) (b : Bool) (tlm al ua : Nat)
    (com : Option (List Nat × Nat)) (lk vis dll : Nat) :
    calculateVaribleHashF env f M
        (GlobalVar.mk name vt b tlm al ua com none lk vis dll)
      = some (varPreB M vt b tlm al ua com) := rfl

/-- Two variables sharing name and initializer whose digests agree have
equal pre-initializer streams. -/
theorem calcVar_pre_of_eq (env : GEnv) (f : Nat) (M : ModuleM)
    (name : List Nat) (vt1 vt2 : Ty) (b1 b2 : Bool)
    (tlm1 tlm2 al1 al2 ua1 ua2 : Nat)
    (com1 com2 : Option (List Nat × Nat)) (ini : Option Const)
    (lk vis dll : Nat)
    (hsome : (calculateVaribleHashF env f M
      (GlobalVar.mk name vt1 b1 tlm1 al1 ua1 com1 ini lk vis dll)).isSome)
    (heq : calculateVaribleHashF env f M
        (GlobalVar.mk name vt1 b1 tlm1 al1 ua1 com1 ini lk vis dll)
      = calculateVaribleHashF env f M
        (GlobalVar.mk name vt2 b2 tlm2 al2 ua2 com2 ini lk vis dll)) :
    varPreB M vt1 b1 tlm1 al1 ua1 com1
      = varPreB M vt2 b2 tlm2 al2 ua2 com2 := by
  cases ini with
  | none =>
    rw [calcVar_mk_none, calcVar_mk_none] at heq
    simpa using heq
  | some c =>
    rw [calcVar_mk_some, calcVar_mk_some] at heq
    by_cases hn : name ≠ []
    · rw [if_pos hn, if_pos hn] at heq
      cases hc : constantHashF env f (⟨[], []⟩ : HCState) c with
      | none =>
        rw [calcVar_mk_some, if_pos hn, hc] at hsome
        simp at hsome
      | some p =>
        rw [hc] at heq
        simp only [Option.map_some', Option.some_inj] at heq
        exact List.append_cancel_right heq
    · rw [if_neg hn, if_neg hn] at heq
      simpa using heq

/-- Equal pre-initializer streams force the hashed fields to agree
componentwise (the fixed-width tagged layout leaves no room for
aliasing). -/
theorem varPreB_fields (M : ModuleM) (vt : Ty) (b1 b2 : Bool)
    (tlm1 tlm2 al1 al2 ua1 ua2 : Nat)
    (com1 com2 : Option (List Nat × Nat))
    (h : varPreB M vt b1 tlm1 al1 ua1 com1
      = varPreB M vt b2 tlm2 al2 ua2 com2) :
    b1 = b2 ∧ tlm1 = tlm2 ∧ numberHash al1 = numberHash al2 ∧ ua1 = ua2
      ∧ comdatPart com1 = comdatPart com2 := by
  unfold varPreB bByte at h
  simp only [List.append_assoc, List.cons_append, List.nil_append,
    List.cons.injEq, List.append_cancel_left_eq, true_and] at h
  obtain ⟨hb, htlm, hrest⟩ := h
  have hlen : (numberHash al1).length = (numberHash al2).length := by
    simp [numberHash, leBytes]
  obtain ⟨hal, htail⟩ := List.append_inj hrest hlen
  simp only [List.cons.injEq, true_and] at htail
  refine ⟨?_, htlm, hal, htail.1, htail.2⟩
  by_cases hb1 : b1 <;> by_cases hb2 : b2 <;> simp [hb1, hb2] at hb ⊢

/-- A component mismatch in the pre-initializer stream separates the
digests. -/
theorem calcVar_ne_of_preNe (env : GEnv) (f : Nat) (M : ModuleM)
    (name : List Nat) (vt1 vt2 : Ty) (b1 b2 : Bool)
    (tlm1 tlm2 al1 al2 ua1 ua2 : Nat)
    (com1 com2 : Option (List Nat × Nat)) (ini : Option Const)
    (lk vis dll : Nat)
    (hsome : (calculateVaribleHashF env f M
      (GlobalVar.mk name vt1 b1 tlm1 al1 ua1 com1 ini lk vis dll)).isSome)
    (hne : varPreB M vt1 b1 tlm1 al1 ua1 com1
      ≠ varPreB M vt2 b2 tlm2 al2 ua2 com2) :
    calculateVaribleHashF env f M
        (GlobalVar.mk name vt1 b1 tlm1 al1 ua1 com1 ini lk vis dll)
      ≠ calculateVaribleHashF env f M
        (GlobalVar.mk name vt2 b2 tlm2 al2 ua2 com2 ini lk vis dll) :=
  fun heq => hne (calcVar_pre_of_eq env f M name vt1 vt2 b1 b2 tlm1 tlm2
    al1 al2 ua1 ua2 com1 com2 ini lk vis dll hsome heq)

theorem comdatPart_inj (com1 com2 : Option (List Nat × Nat))
    (h : comdatPart com1 = comdatPart com2) : com1 = com2 := by
  cases com1 with
  | none =>
    cases com2 with
    | none => rfl
    | some c2 => exfalso; simp [comdatPart, comdatHash] at h
  | some c1 =>
    cases com2 with
    | none => exfalso; simp [comdatPart, comdatHash] at h
    | some c2 =>
      simp only [comdatPart, comdatHash, List.cons.injEq, true_and] at h
      have hlen : c1.1.length = c2.1.length := by
        have := congrArg List.length h
        simpa using this
      obtain ⟨h1, h2⟩ := List.append_inj h hlen
      simp only [List.cons.injEq, and_true] at h2
      cases c1
      cases c2
      simp_all

/-- C7 (amended): in one module, two global variables that differ only in
linkage, visibility, DLL storage class (or the module source filename)
hash identically; two that differ in constness, thread-local mode,
alignment (64-bit) or comdat hash differently; and for a named variable,
dropping the definitive initializer changes the digest.  (Differing
initializer *values* need not change the digest — see the
counterexample.) -/
theorem varHash_field_sensitivity :
    (∀ (env : GEnv) (f : Nat) (dl tr sfn1 sfn2 name : List Nat) (vt : Ty)
        (b : Bool) (tlm al ua : Nat) (com : Option (List Nat × Nat))
        (ini : Option Const) (lk1 lk2 vis1 vis2 dll1 dll2 : Nat),
      calculateVaribleHashF env f ⟨dl, tr, sfn1⟩
          (GlobalVar.mk name vt b tlm al ua com ini lk1 vis1 dll1)
        = calculateVaribleHashF env f ⟨dl, tr, sfn2⟩
          (GlobalVar.mk name vt b tlm al ua com ini lk2 vis2 dll2))
    ∧ (∀ (env : GEnv) (f : Nat) (M : ModuleM) (name : List Nat) (vt : Ty)
        (b1 b2 : Bool) (tlm al ua : Nat) (com : Option (List Nat × Nat))
        (ini : Option Const) (lk vis dll : Nat),
      b1 ≠ b2 →
      (calculateVaribleHashF env f M
        (GlobalVar.mk name vt b1 tlm al ua com ini lk vis dll)).isSome →
      calculateVaribleHashF env f M
          (GlobalVar.mk name vt b1 tlm al ua com ini lk vis dll)
        ≠ calculateVaribleHashF env f M
          (GlobalVar.mk name vt b2 tlm al ua com ini lk vis dll))
    ∧ (∀ (env : GEnv) (f : Nat) (M : ModuleM) (name : List Nat) (vt : Ty)
        (b : Bool) (tlm1 tlm2 al ua : Nat) (com : Option (List Nat × Nat))
        (ini : Option Const) (lk vis dll : Nat),
      tlm1 ≠ tlm2 →
      (calculateVaribleHashF env f M
        (GlobalVar.mk name vt b tlm1 al ua com ini lk vis dll)).isSome →
      calculateVaribleHashF env f M
          (GlobalVar.mk name vt b tlm1 al ua com ini lk vis dll)
        ≠ calculateVaribleHashF env f M
          (GlobalVar.mk name vt b tlm2 al ua com ini lk vis dll))
    ∧ (∀ (env : GEnv) (f : Nat) (M : ModuleM) (name : List Nat) (vt : Ty)
        (b : Bool) (tlm al1 al2 ua : Nat) (com : Option (List Nat × Nat))
        (ini : Option Const) (lk vis dll : Nat),
      al1 ≠ al2 → al1 < 2 ^ 64 → al2 < 2 ^ 64 →
      (calculateVaribleHashF env f M
        (GlobalVar.mk name vt b tlm al1 ua com ini lk vis dll)).isSome →
      calculateVaribleHashF env f M
          (GlobalVar.mk name vt b tlm al1 ua com ini lk vis dll)
        ≠ calculateVaribleHashF env f M
          (GlobalVar.mk name vt b tlm al2 ua com ini lk vis dll))
    ∧ (∀ (env : GEnv) (f : Nat) (M : ModuleM) (name : List Nat) (vt : Ty)
        (b : Bool) (tlm al ua : Nat)
        (com1 com2 : Option (List Nat × Nat)) (ini : Option Const)
        (lk vis dll : Nat),
      com1 ≠ com2 →
      (calculateVaribleHashF env f M
        (GlobalVar.mk name vt b tlm al ua com1 ini lk vis dll)).isSome →
      calculateVaribleHashF env f M
          (GlobalVar.mk name vt b tlm al ua com1 ini lk vis dll)
        ≠ calculateVaribleHashF env f M
          (GlobalVar.mk name vt b tlm al ua com2 ini lk vis dll))
    ∧ (∀ (env : GEnv) (f : Nat) (M : ModuleM) (name : List Nat) (vt : Ty)
        (b : Bool) (tlm al ua : Nat) (com : Option (List Nat × Nat))
        (c : Const) (lk vis dll : Nat),
      name ≠ [] →
      (calculateVaribleHashF env f M
        (GlobalVar.mk name vt b tlm al ua com (some c) lk vis dll)).isSome →
      calculateVaribleHashF env f M
          (GlobalVar.mk name vt b tlm al ua com (some c) lk vis dll)
        ≠ calculateVaribleHashF env f M
          (GlobalVar.mk name vt b tlm al ua com none lk vis dll)) := by
  refine ⟨?_, ?_, ?_, ?_, ?_, ?_⟩
  · intro env f dl tr sfn1 sfn2 name vt b tlm al ua com ini lk1 lk2 vis1
      vis2 dll1 dll2
    rfl
  · intro env f M name vt b1 b2 tlm al ua com ini lk vis dll hne hsome
    refine calcVar_ne_of_preNe env f M name vt vt b1 b2 tlm tlm al al ua ua
      com com ini lk vis dll hsome (fun hpre => ?_)
    exact hne (varPreB_fields M vt b1 b2 tlm tlm al al ua ua com com hpre).1
  · intro env f M name vt b tlm1 tlm2 al ua com ini lk vis dll hne hsome
    refine calcVar_ne_of_preNe env f M name vt vt b b tlm1 tlm2 al al ua ua
      com com ini lk vis dll hsome (fun hpre => ?_)
    exact hne (varPreB_fields M vt b b tlm1 tlm2 al al ua ua com com
      hpre).2.1
  · intro env f M name vt b tlm al1 al2 ua com ini lk vis dll hne h1 h2
      hsome
    refine calcVar_ne_of_preNe env f M name vt vt b b tlm tlm al1 al2 ua ua
      com com ini lk vis dll hsome (fun hpre => ?_)
    have hnh := (varPreB_fields M vt b b tlm tlm al1 al2 ua ua com com
      hpre).2.2.1
    have h264 : (2 : Nat) ^ 64 = 256 ^ 8 := by norm_num
    exact hne (leBytes_inj 8 al1 al2 (h264 ▸ h1) (h264 ▸ h2) hnh)
  · intro env f M name vt b tlm al ua com1 com2 ini lk vis dll hne hsome
    refine calcVar_ne_of_preNe env f M name vt vt b b tlm tlm al al ua ua
      com1 com2 ini lk vis dll hsome (fun hpre => ?_)
    exact hne (comdatPart_inj com1 com2
      (varPreB_fields M vt b b tlm tlm al al ua ua com1 com2 hpre).2.2.2.2)
  · intro env f M name vt b tlm al ua com c lk vis dll hn hsome heq
    rw [calcVar_mk_some, if_pos hn] at heq hsome
    rw [calcVar_mk_none] at heq
    cases hc : constantHashF env f (⟨[], []⟩ : HCState) c with
    | none =>
      rw [hc] at hsome
      simp at hsome
    | some p =>
      rw [hc] at heq
      simp only [Option.map_some', Option.some_inj] at heq
      have hl := congrArg List.length heq
      simp at hl

/-- C7 counterexample: the claim "differing in initializer produces
different digests" is false on the code.  A named variable whose
initializers are two different constant expressions (opcodes 13 and 15
over the same operands — `constantHash` hashes only the generic
`ConstantExprVal` value id, never the opcode) hashes identically; and an
unnamed variable's initializer is not hashed at all (hasName() fails), so
initializers 5 and 6 also collide. -/
theorem varHash_initializer_value_collision :
    (calculateVaribleHashF ⟨[], fun g => g⟩ 2
        ⟨strBytes "dl", strBytes "tr", []⟩
        (GlobalVar.mk [120] (.int 64) false 0 0 0 none
          (some (.exprC (.int 64) 13 [])) 0 0 0)
      = calculateVaribleHashF ⟨[], fun g => g⟩ 2
        ⟨strBytes "dl", strBytes "tr", []⟩
        (GlobalVar.mk [120] (.int 64) false 0 0 0 none
          (some (.exprC (.int 64) 15 [])) 0 0 0))
    ∧ ¬ (Const.exprC (.int 64) 13 [] = Const.exprC (.int 64) 15 [])
    ∧ (calculateVaribleHashF ⟨[], fun g => g⟩ 2
        ⟨strBytes "dl", strBytes "tr", []⟩
        (GlobalVar.mk [] (.int 32) false 0 0 0 none
          (some (.intC (.int 32) ⟨[5]⟩)) 0 0 0)
      = calculateVaribleHashF ⟨[], fun g => g⟩ 2
        ⟨strBytes "dl", strBytes "tr", []⟩
        (GlobalVar.mk [] (.int 32) false 0 0 0 none
          (some (.intC (.int 32) ⟨[6]⟩)) 0 0 0))
    ∧ ¬ (Const.intC (.int 32) ⟨[5]⟩ = Const.intC (.int 32) ⟨[6]⟩) := by
  refine ⟨by decide, by simp, by decide, by simp⟩

/-- C7 witness: concrete instances of `varHash_field_sensitivity` —
variables differing only in linkage/visibility/DLL-storage hash equal;
differing only in constness hash different. -/
theorem varHash_field_sensitivity_witness :
    (calculateVaribleHashF ⟨[], fun g => g⟩ 2
        ⟨strBytes "dl", strBytes "tr", strBytes "a.c"⟩
        (GlobalVar.mk [120] (.int 32) false 0 4 0 none none 1 1 1)
      = calculateVaribleHashF ⟨[], fun g => g⟩ 2
        ⟨strBytes "dl", strBytes "tr", strBytes "b.c"⟩
        (GlobalVar.mk [120] (.int 32) false 0 4 0 none none 2 2 2))
    ∧ ¬ (calculateVaribleHashF ⟨[], fun g => g⟩ 2
        ⟨strBytes "dl", strBytes "tr", []⟩
        (GlobalVar.mk [120] (.int 32) true 0 4 0 none none 0 0 0)
      = calculateVaribleHashF ⟨[], fun g => g⟩ 2
        ⟨strBytes "dl", strBytes "tr", []⟩
        (GlobalVar.mk [120] (.int 32) false 0 4 0 none none 0 0 0)) := by
  constructor
  · exact varHash_field_sensitivity.1 ⟨[], fun g => g⟩ 2 (strBytes "dl")
      (strBytes "tr") (strBytes "a.c") (strBytes "b.c") [120] (.int 32)
      false 0 4 0 none none 1 2 1 2 1 2
  · exact varHash_field_sensitivity.2.1 ⟨[], fun g => g⟩ 2
      ⟨strBytes "dl", strBytes "tr", []⟩ [120] (.int 32) true false 0 4 0
      none none 0 0 0 (by decide) (by decide)

/-!  ## C3: renaming anonymous values preserves the digest -/

theorem findIdx_map_inj {ρ : Nat → Nat} (hinj : Function.Injective ρ)
    (id : Nat) :
    ∀ l : List Nat, (l.map ρ).findIdx (fun x => x = ρ id)
      = l.findIdx (fun x => x = id) := by
  intro l
  induction l with
  | nil => rfl
  | cons a l ih =>
    simp only [List.map_cons, List.findIdx_cons]
    by_cases h : a = id
    · subst h
      simp
    · have h2 : ρ a ≠ ρ id := fun he => h (hinj he)
      simp [h, h2, ih]

theorem contains_map_inj {ρ : Nat → Nat} (hinj : Function.Injective ρ)
    (id : Nat) (l : List Nat) :
    (l.map ρ).contains (ρ id) = l.contains id := by
  by_cases h : id ∈ l
  · have h2 : ρ id ∈ l.map ρ := List.mem_map_of_mem ρ h
    simp [h, h2]
  · have h2 : ρ id ∉ l.map ρ := by
      intro hm
      obtain ⟨a, ha, he⟩ := List.mem_map.mp hm
      exact h (hinj he ▸ ha)
    simp [h, h2]

theorem snEmit_rename {ρ : Nat → Nat} (hinj : Function.Injective ρ)
    (st : HCState) (id : Nat) :
    snEmit (mapState ρ st) (ρ id)
      = (mapState ρ (snEmit st id).1, (snEmit st id).2) := by
  unfold snEmit mapState
  simp only [contains_map_inj hinj]
  by_cases hc : id ∈ st.snMap
  · simp [hc, findIdx_map_inj hinj]
  · simp [hc]

theorem lookup_renameGEnv (ρ : Nat → Nat) (g : Nat) :
    ∀ l : List (Nat × Const),
      (l.map (fun p => (p.1, renameConst ρ p.2))).lookup g
        = (l.lookup g).map (renameConst ρ) := by
  intro l
  induction l with
  | nil => rfl
  | cons p l ih =>
    simp only [List.map_cons, List.lookup]
    by_cases h : g = p.1
    · simp [h]
    · have hb : (g == p.1) = false := by simpa using h
      simp [hb, ih]

theorem renameConst_ty (ρ : Nat → Nat) (c : Const) :
    (renameConst ρ c).ty = c.ty := by
  cases c <;> rfl

theorem renameVal_tyOf (ρ : Nat → Nat) (ν : Nat → List Nat) (v : Val) :
    (renameVal ρ ν v).tyOf = v.tyOf := by
  cases v with
  | cst c => simp [renameVal, Val.tyOf, renameConst_ty]
  | asm a => rfl
  | loc id ty n => rfl

theorem constantHashF_rename (env : GEnv) {ρ : Nat → Nat}
    (hinj : Function.Injective ρ) : ∀ f,
    (∀ st c, constantHashF (renameGEnv ρ env) f (mapState ρ st)
        (renameConst ρ c)
      = (constantHashF env f st c).map (fun p => (mapState ρ p.1, p.2)))
    ∧ (∀ st cs, constListHashF (renameGEnv ρ env) f (mapState ρ st)
        (renameConstList ρ cs)
      = (constListHashF env f st cs).map (fun p => (mapState ρ p.1, p.2)))
    ∧ (∀ st g, globalValueHashF (renameGEnv ρ env) f (mapState ρ st) g
      = (globalValueHashF env f st g).map
          (fun p => (mapState ρ p.1, p.2))) := by
  intro f
  induction f with
  | zero => exact ⟨fun st c => rfl, fun st cs => rfl, fun st g => rfl⟩
  | succ f ih =>
    obtain ⟨ihc, ihl, ihg⟩ := ih
    refine ⟨?_, ?_, ?_⟩
    · intro st c
      cases c with
      | intC ty v => rfl
      | fpC ty sem bits => rfl
      | leafC ty vid => rfl
      | dataC ty vid bytes => rfl
      | otherGVC ty => rfl
      | blockAddrC ty fnTy bb =>
        simp only [renameConst, constantHashF]
        rw [snEmit_rename hinj]
        rfl
      | arrayC ty es =>
        simp only [renameConst, constantHashF]
        rw [ihl]
        cases constListHashF env f st es <;> rfl
      | structC ty es =>
        simp only [renameConst, constantHashF]
        rw [ihl]
        cases constListHashF env f st es <;> rfl
      | vectorC ty es =>
        simp only [renameConst, constantHashF]
        rw [ihl]
        cases constListHashF env f st es <;> rfl
      | exprC ty op ops =>
        simp only [renameConst, constantHashF]
        rw [ihl]
        cases constListHashF env f st ops <;> rfl
      | globalVarC ty g =>
        rw [show renameConst ρ (Const.globalVarC ty g)
          = Const.globalVarC ty g from rfl]
        rw [constantHashF_globalVar, constantHashF_globalVar]
        rw [show (renameGEnv ρ env).inits
          = env.inits.map (fun p => (p.1, renameConst ρ p.2)) from rfl]
        rw [lookup_renameGEnv]
        cases hl : env.inits.lookup g with
        | none => rfl
        | some init =>
          simp only [Option.map_some']
          rw [show (mapState ρ st).globalNumbers = st.globalNumbers
            from rfl]
          by_cases hc : st.globalNumbers.contains g
          · rw [if_pos hc, if_pos hc, ihg]
            cases globalValueHashF env f st g <;> rfl
          · rw [if_neg hc, if_neg hc]
            rw [show (⟨st.globalNumbers ++ [g], (mapState ρ st).snMap⟩
                : HCState)
              = mapState ρ ⟨st.globalNumbers ++ [g], st.snMap⟩ from rfl]
            rw [ihc]
            cases constantHashF env f ⟨st.globalNumbers ++ [g], st.snMap⟩
              init <;> rfl
    · intro st cs
      cases cs with
      | nil => rfl
      | cons c cs =>
        simp only [renameConstList, constListHashF, Option.bind_eq_bind]
        rw [ihc]
        cases hp : constantHashF env f st c with
        | none => rfl
        | some p =>
          simp only [Option.map_some', Option.some_bind]
          rw [ihl]
          cases constListHashF env f p.1 cs <;> rfl
    · intro st g
      rw [globalValueHashF_eq, globalValueHashF_eq]
      rw [show (renameGEnv ρ env).inits
        = env.inits.map (fun p => (p.1, renameConst ρ p.2)) from rfl]
      rw [lookup_renameGEnv]
      rw [show (renameGEnv ρ env).guid = env.guid from rfl]
      cases hl : env.inits.lookup g with
      | none => rfl
      | some init =>
        simp only [Option.map_some']
        rw [show (mapState ρ st).globalNumbers = st.globalNumbers from rfl]
        by_cases hc : st.globalNumbers.contains g
        · rw [if_pos hc, if_pos hc]
          rfl
        · rw [if_neg hc, if_neg hc]
          rw [show (⟨st.globalNumbers ++ [g], (mapState ρ st).snMap⟩
              : HCState)
            = mapState ρ ⟨st.globalNumbers ++ [g], st.snMap⟩ from rfl]
          rw [ihc]
          cases constantHashF env f ⟨st.globalNumbers ++ [g], st.snMap⟩
            init <;> rfl

theorem valueHashF_rename (env : GEnv) {ρ : Nat → Nat}
    (hinj : Function.Injective ρ) (ν : Nat → List Nat) (f : Nat)
    (st : HCState) (v : Val) :
    valueHashF (renameGEnv ρ env) f (mapState ρ st) (renameVal ρ ν v)
      = (valueHashF env f st v).map (fun p => (mapState ρ p.1, p.2)) := by
  cases v with
  | cst c =>
    simp only [renameVal, valueHashF]
    rw [(constantHashF_rename env hinj f).1]
    cases constantHashF env f st c <;> rfl
  | asm a => rfl
  | loc id ty n =>
    simp only [renameVal, valueHashF]
    rw [snEmit_rename hinj]
    rfl

theorem valueListHashF_rename (env : GEnv) {ρ : Nat → Nat}
    (hinj : Function.Injective ρ) (ν : Nat → List Nat) (f : Nat) :
    ∀ (vs : List Val) (st : HCState),
    valueListHashF (renameGEnv ρ env) f (mapState ρ st)
        (vs.map (renameVal ρ ν))
      = (valueListHashF env f st vs).map (fun p => (mapState ρ p.1, p.2)) := by
  intro vs
  induction vs with
  | nil => intro st; rfl
  | cons v vs ih =>
    intro st
    simp only [List.map_cons, valueListHashF, Option.bind_eq_bind]
    rw [valueHashF_rename env hinj ν]
    cases hp : valueHashF env f st v with
    | none => rfl
    | some p =>
      simp only [Option.map_some', Option.some_bind]
      rw [ih]
      cases valueListHashF env f p.1 vs <;> rfl

theorem instExtraHashF_rename (env : GEnv) {ρ : Nat → Nat}
    (hinj : Function.Injective ρ) (ν : Nat → List Nat) (f : Nat)
    (st : HCState) (e : InstExtra) :
    instExtraHashF (renameGEnv ρ env) f (mapState ρ st) (renameExtra ρ ν e)
      = (instExtraHashF env f st e).map (fun p => (mapState ρ p.1, p.2)) := by
  cases e with
  | phi incoming =>
    simp only [renameExtra, instExtraHashF]
    rw [valueListHashF_rename env hinj ν]
    cases valueListHashF env f st incoming <;> rfl
  | plain => rfl
  | gep t => rfl
  | alloca t a => rfl
  | load v a o sc r => rfl
  | store v a o sc => rfl
  | cmp p => rfl
  | call tc attrs bs r callee => rfl
  | invoke cc attrs bs r callee => rfl
  | insertValue addr idxs => rfl
  | extractValue addr idxs => rfl
  | fence o sc => rfl
  | cmpxchg v w so fo sc => rfl
  | atomicrmw op v o sc => rfl

theorem operandsHashF_rename (env : GEnv) {ρ : Nat → Nat}
    (hinj : Function.Injective ρ) (ν : Nat → List Nat) (f : Nat) :
    ∀ (vs : List Val) (st : HCState),
    operandsHashF (renameGEnv ρ env) f (mapState ρ st)
        (vs.map (renameVal ρ ν))
      = (operandsHashF env f st vs).map (fun p => (mapState ρ p.1, p.2)) := by
  intro vs
  induction vs with
  | nil => intro st; rfl
  | cons v vs ih =>
    intro st
    simp only [List.map_cons, operandsHashF, Option.bind_eq_bind]
    rw [valueHashF_rename env hinj ν, renameVal_tyOf]
    cases hp : valueHashF env f st v with
    | none => rfl
    | some p =>
      simp only [Option.map_some', Option.some_bind]
      rw [ih]
      cases operandsHashF env f p.1 vs <;> rfl

theorem instructionHashF_rename (env : GEnv) {ρ : Nat → Nat}
    (hinj : Function.Injective ρ) (ν : Nat → List Nat) (f : Nat)
    (st : HCState) (i : Inst) :
    instructionHashF (renameGEnv ρ env) f (mapState ρ st) (renameInst ρ ν i)
      = (instructionHashF env f st i).map (fun p => (mapState ρ p.1, p.2)) := by
  unfold instructionHashF renameInst
  simp only [Option.bind_eq_bind]
  rw [operandsHashF_rename env hinj ν]
  cases hp : operandsHashF env f st i.operands with
  | none => rfl
  | some p =>
    simp only [Option.map_some', Option.some_bind]
    rw [instExtraHashF_rename env hinj ν]
    cases instExtraHashF env f p.1 i.extra <;> rfl

theorem instListHashF_rename (env : GEnv) {ρ : Nat → Nat}
    (hinj : Function.Injective ρ) (ν : Nat → List Nat) (f : Nat) :
    ∀ (is2 : List Inst) (st : HCState),
    instListHashF (renameGEnv ρ env) f (mapState ρ st)
        (is2.map (renameInst ρ ν))
      = (instListHashF env f st is2).map (fun p => (mapState ρ p.1, p.2)) := by
  intro is2
  induction is2 with
  | nil => intro st; rfl
  | cons i is2 ih =>
    intro st
    simp only [List.map_cons, instListHashF, Option.bind_eq_bind]
    rw [instructionHashF_rename env hinj ν]
    cases hp : instructionHashF env f st i with
    | none => rfl
    | some p =>
      simp only [Option.map_some', Option.some_bind]
      rw [ih]
      cases instListHashF env f p.1 is2 <;> rfl

theorem basicBlockHashF_rename (env : GEnv) {ρ : Nat → Nat}
    (hinj : Function.Injective ρ) (ν : Nat → List Nat) (f : Nat)
    (st : HCState) (is2 : List Inst) :
    basicBlockHashF (renameGEnv ρ env) f (mapState ρ st)
        (is2.map (renameInst ρ ν))
      = (basicBlockHashF env f st is2).map
          (fun p => (mapState ρ p.1, p.2)) := by
  unfold basicBlockHashF
  rw [instListHashF_rename env hinj ν]
  cases instListHashF env f st is2 <;> rfl

theorem blockLookup_rename {ρ : Nat → Nat} (hinj : Function.Injective ρ)
    (ν νb : Nat → List Nat) (F : Func) (id : Nat) :
    blockLookup (renameFunc ρ ν νb F) (ρ id)
      = (blockLookup F id).map (renameBlock ρ ν νb) := by
  unfold blockLookup renameFunc
  show (F.blocks.map (renameBlock ρ ν νb)).find? (fun b => b.bid = ρ id)
    = (F.blocks.find? (fun b => b.bid = id)).map (renameBlock ρ ν νb)
  induction F.blocks with
  | nil => rfl
  | cons b l ih =>
    simp only [List.map_cons, List.find?_cons]
    by_cases h : b.bid = id
    · have h2 : (renameBlock ρ ν νb b).bid = ρ id := by
        simp [renameBlock, h]
      simp [h, h2]
    · have h3 : ρ b.bid ≠ ρ id := fun he => h (hinj he)
      simp [renameBlock, h, h3, ih]

theorem pushSuccs_map {ρ : Nat → Nat} (hinj : Function.Injective ρ) :
    ∀ (ss vis : List Nat),
    pushSuccs (vis.map ρ) (ss.map ρ)
      = ((pushSuccs vis ss).1.map ρ, (pushSuccs vis ss).2.map ρ) := by
  intro ss
  induction ss with
  | nil => intro vis; rfl
  | cons s ss ih =>
    intro vis
    simp only [List.map_cons, pushSuccs]
    rw [contains_map_inj hinj]
    by_cases hc : vis.contains s
    · simp only [hc, if_pos]
      exact ih vis
    · simp only [hc, if_neg, Bool.false_eq_true, not_false_iff]
      rw [show vis.map ρ ++ [ρ s] = (vis ++ [s]).map ρ by simp]
      rw [ih (vis ++ [s])]
      rfl

theorem walkF_rename (env : GEnv) {ρ : Nat → Nat}
    (hinj : Function.Injective ρ) (ν νb : Nat → List Nat) (F : Func)
    (f : Nat) : ∀ (wf : Nat) (st : HCState) (vis stack : List Nat),
    walkF (renameGEnv ρ env) (renameFunc ρ ν νb F) f wf (mapState ρ st)
        (vis.map ρ) (stack.map ρ)
      = (walkF env F f wf st vis stack).map
          (fun p => (mapState ρ p.1, p.2)) := by
  intro wf
  induction wf with
  | zero => intro st vis stack; rfl
  | succ wf ih =>
    intro st vis stack
    cases stack with
    | nil => rfl
    | cons id rest =>
      simp only [List.map_cons, walkF]
      rw [snEmit_rename hinj, blockLookup_rename hinj ν νb]
      cases hfl : blockLookup F id with
      | none =>
        simp only [Option.map_none']
        rw [ih (snEmit st id).1 vis rest]
        cases walkF env F f wf (snEmit st id).1 vis rest <;> rfl
      | some bb =>
        simp only [Option.map_some']
        rw [show (renameBlock ρ ν νb bb).insts
          = bb.insts.map (renameInst ρ ν) from rfl]
        rw [basicBlockHashF_rename env hinj ν]
        cases hbb : basicBlockHashF env f (snEmit st id).1 bb.insts with
        | none => rfl
        | some q =>
          simp only [Option.map_some']
          rw [show (renameBlock ρ ν νb bb).succs = bb.succs.map ρ from rfl]
          rw [pushSuccs_map hinj]
          rw [show (((pushSuccs vis bb.succs).2.map ρ).reverse
              ++ rest.map ρ)
            = ((pushSuccs vis bb.succs).2.reverse ++ rest).map ρ by
              simp [List.map_reverse]]
          rw [ih q.1 (pushSuccs vis bb.succs).1
            ((pushSuccs vis bb.succs).2.reverse ++ rest)]
          cases walkF env F f wf q.1 (pushSuccs vis bb.succs).1
            ((pushSuccs vis bb.succs).2.reverse ++ rest) <;> rfl

theorem signatureHashF_rename (env : GEnv) {ρ : Nat → Nat}
    (hinj : Function.Injective ρ) (ν νb : Nat → List Nat) (f : Nat)
    (st : HCState) (F : Func) :
    signatureHashF (renameGEnv ρ env) f (mapState ρ st)
        (renameFunc ρ ν νb F)
      = (signatureHashF env f st F).map (fun p => (mapState ρ p.1, p.2)) := by
  unfold signatureHashF
  simp only [Option.bind_eq_bind]
  rw [show (renameFunc ρ ν νb F).args = F.args.map (renameVal ρ ν) from rfl]
  rw [valueListHashF_rename env hinj ν]
  cases hp : valueListHashF env f st F.args with
  | none => rfl
  | some p => rfl

theorem calcFn_rename (env : GEnv) {ρ : Nat → Nat}
    (hinj : Function.Injective ρ) (ν νb : Nat → List Nat) (f : Nat)
    (M : ModuleM) (F : Func) :
    calculateFunctionHashF (renameGEnv ρ env) f M (renameFunc ρ ν νb F)
      = calculateFunctionHashF env f M F := by
  unfold calculateFunctionHashF
  simp only [Option.bind_eq_bind]
  conv_lhs => rw [show (⟨[], []⟩ : HCState)
    = mapState ρ (⟨[], []⟩ : HCState) from rfl]
  rw [signatureHashF_rename env hinj ν νb]
  cases hp : signatureHashF env f (⟨[], []⟩ : HCState) F with
  | none => rfl
  | some p =>
    simp only [Option.map_some', Option.some_bind]
    rw [show (renameFunc ρ ν νb F).entry = ρ F.entry from rfl]
    rw [show [ρ F.entry] = [F.entry].map ρ from rfl]
    rw [walkF_rename env hinj ν νb F f f p.1 [F.entry] [F.entry]]
    cases walkF env F f f p.1 [F.entry] [F.entry] <;> rfl

/-- C3: for two functions in modules with equal data-layout strings and
target triples, whose bodies are identical up to a consistent injective
renaming of anonymous (non-constant, non-global) values — argument,
instruction and basic-block identities via `ρ`, their textual names
arbitrarily via `ν`/`νb` — `calculateFunctionHash` produces equal
digests: such values are hashed only by their first-occurrence sn_map
sequence number, never by name.  The hypothesis `renameGEnv ρ env = env`
says the renaming touches only values owned by the function (no other
global's initializer block-addresses into it). -/
theorem calculateFunctionHash_rename_invariant (env : GEnv)
    (ρ : Nat → Nat) (ν νb : Nat → List Nat) (f : Nat) (M1 M2 : ModuleM)
    (F : Func) (hinj : Function.Injective ρ)
    (henv : renameGEnv ρ env = env)
    (hdl : M2.dataLayout = M1.dataLayout) (htr : M2.triple = M1.triple) :
    calculateFunctionHashF env f M2 (renameFunc ρ ν νb F)
      = calculateFunctionHashF env f M1 F := by
  have h1 : calculateFunctionHashF env f M2 (renameFunc ρ ν νb F)
      = calculateFunctionHashF env f M2 F := by
    conv_lhs => rw [← henv]
    exact calcFn_rename env hinj ν νb f M2 F
  rw [h1]
  have hmod : moduleHashStream M2 = moduleHashStream M1 := by
    unfold moduleHashStream
    rw [hdl, htr]
  unfold calculateFunctionHashF
  rw [hmod]

/-- C3 witness: renaming the argument (10 to 20), the add result (11 to
21) and the entry block (0 to 30) of the concrete add/ret function, with
fresh textual names, leaves the digest unchanged. -/
theorem calculateFunctionHash_rename_invariant_witness :
    calculateFunctionHashF ⟨[], fun g => g⟩ 3
        ⟨strBytes "dl", strBytes "tr", strBytes "a.c"⟩
        (renameFunc (fun n => n + 10) (fun n => [n + 60])
          (fun n => [n + 70]) F1ex)
      = calculateFunctionHashF ⟨[], fun g => g⟩ 3
        ⟨strBytes "dl", strBytes "tr", strBytes "b.c"⟩ F1ex :=
  calculateFunctionHash_rename_invariant ⟨[], fun g => g⟩
    (fun n => n + 10) (fun n => [n + 60]) (fun n => [n + 70]) 3
    ⟨strBytes "dl", strBytes "tr", strBytes "b.c"⟩
    ⟨strBytes "dl", strBytes "tr", strBytes "a.c"⟩ F1ex
    (fun a b h => by simp at h; omega) rfl rfl rfl
